import Mathlib

/-!
Verification development for the RAG backend core: the citation parser
(`app/utils/citation_parser.py`), the text chunker (`app/utils/chunking.py`)
and the vector service (`app/services/vector_service.py`).

Modeling conventions, used throughout:
* Python strings are `List Char` (ASCII is assumed where Python uses
  unicode-aware predicates such as `str.isupper`).
* Python ints are `Nat` (sizes, offsets) or `Int` (signed list indices).
* Floats that are merely carried through data are `ℚ`; the cosine-similarity
  arithmetic is modeled over `ℝ`.
* Python code that can raise is modeled with `Option` / `Except`.
-/

/-- Predicate for Python `\s` on ASCII text: space, tab, newline, CR, VT, FF. -/
def isPySpace (c : Char) : Bool :=
  c == ' ' || c == '\t' || c == '\n' || c == '\r' || c == '\x0b' || c == '\x0c'

/-- Python `str.strip()` (whitespace variant): drop leading and trailing
whitespace. -/
def stripChars (s : List Char) : List Char :=
  (s.dropWhile isPySpace).rdropWhile isPySpace

theorem stripChars_length_le (s : List Char) : (stripChars s).length ≤ s.length :=
  le_trans (List.rdropWhile_prefix _ _).sublist.length_le
    (List.dropWhile_sublist _).length_le

theorem stripChars_eq_nil_iff (s : List Char) :
    stripChars s = [] ↔ ∀ c ∈ s, isPySpace c := by
  unfold stripChars
  rw [List.rdropWhile_eq_nil_iff]
  constructor
  · intro h c hc
    by_cases hmem : c ∈ s.dropWhile isPySpace
    · exact h c hmem
    · have hsplit : s.takeWhile isPySpace ++ s.dropWhile isPySpace = s :=
        List.takeWhile_append_dropWhile isPySpace s
      rw [← hsplit] at hc
      rcases List.mem_append.mp hc with hc | hc
      · exact List.mem_takeWhile_imp hc
      · exact absurd hc hmem
  · intro h c hc
    exact h c ((List.dropWhile_sublist _).subset hc)

/-- The left-stripped part of `stripChars` is already fully dropped. -/
theorem dropWhile_stripChars (s : List Char) :
    (stripChars s).dropWhile isPySpace = stripChars s := by
  unfold stripChars
  rw [List.dropWhile_eq_self_iff]
  intro hl
  have hpre := List.rdropWhile_prefix isPySpace (s.dropWhile isPySpace)
  have hlen : 0 < (s.dropWhile isPySpace).length :=
    lt_of_lt_of_le hl hpre.sublist.length_le
  have hhead := hpre.getElem hl
  simp only [List.get_eq_getElem]
  rw [hhead]
  have := List.dropWhile_get_zero_not isPySpace s hlen
  simpa using this

theorem stripChars_fix_dropWhile (u : List Char) (h : stripChars u = u) :
    u.dropWhile isPySpace = u := by
  conv_lhs => rw [← h]
  rw [dropWhile_stripChars, h]

theorem stripChars_fix_rdropWhile (u : List Char) (h : stripChars u = u) :
    u.rdropWhile isPySpace = u := by
  conv_lhs => rw [← h]
  unfold stripChars
  rw [List.rdropWhile_idempotent]
  exact h

/-- The function `stripChars` is idempotent. -/
theorem stripChars_idem (s : List Char) : stripChars (stripChars s) = stripChars s := by
  show ((stripChars s).dropWhile isPySpace).rdropWhile isPySpace = stripChars s
  rw [dropWhile_stripChars s]
  show ((s.dropWhile isPySpace).rdropWhile isPySpace).rdropWhile isPySpace = stripChars s
  rw [List.rdropWhile_idempotent]
  rfl

/-- Appending a trailing newline does not change the stripped value of an
already-stripped string. -/
theorem stripChars_append_nl (u : List Char) (hu : stripChars u = u) (hne : u ≠ []) :
    stripChars (u ++ ['\n']) = u := by
  unfold stripChars
  have h1 : (u ++ ['\n']).dropWhile isPySpace = u ++ ['\n'] := by
    rw [List.dropWhile_append]
    have : u.dropWhile isPySpace = u := stripChars_fix_dropWhile u hu
    rw [this]
    simp [hne]
  rw [h1, List.rdropWhile_concat_pos _ _ _ (by simp [isPySpace])]
  exact stripChars_fix_rdropWhile u hu

/-! ## Citation parser (`app/utils/citation_parser.py`) -/

def isDigitChar (c : Char) : Bool := '0' ≤ c && c ≤ '9'

/-- Python `int(...)` on a digit string. -/
def digitsToNat (ds : List Char) : Nat :=
  ds.foldl (fun a c => 10 * a + (c.toNat - '0'.toNat)) 0

/-- Parse the tail of an inline marker `[<int>(,<int>)*]` after the first
number: `(,\d+)*\]`, accumulating numbers (reversed).  The `fuel` argument
makes the recursion structural (each step consumes at least one character, so
`fuel = length + 1` always suffices); it exists only so the definition
reduces inside the kernel. -/
def matchNumTailF : Nat → List Char → List Nat → Option (List Nat × List Char)
  | 0, _, _ => none
  | _ + 1, ']' :: rest, acc => some (acc.reverse, rest)
  | fuel + 1, ',' :: rest, acc =>
    if (rest.takeWhile isDigitChar).isEmpty then none
    else matchNumTailF fuel (rest.dropWhile isDigitChar)
      (digitsToNat (rest.takeWhile isDigitChar) :: acc)
  | _ + 1, _, _ => none

def matchNumTail (s : List Char) (acc : List Nat) : Option (List Nat × List Char) :=
  matchNumTailF (s.length + 1) s acc

theorem matchNumTailF_length (fuel : Nat) :
    ∀ (s : List Char) (acc ns : List Nat) (r : List Char),
    matchNumTailF fuel s acc = some (ns, r) → r.length < s.length := by
  induction fuel with
  | zero => intro s acc ns r h; exact absurd h (by simp [matchNumTailF])
  | succ fuel ih =>
    intro s acc ns r h
    unfold matchNumTailF at h
    split at h <;>
    first
      | (simp only [Option.some.injEq, Prod.mk.injEq] at h
         obtain ⟨hns, hr⟩ := h
         subst hr
         simp)
      | (rename_i fuelx restx heqx
         have hfe : fuelx = fuel := by omega
         subst hfe
         split at h
         all_goals first
           | exact absurd h (by simp)
           | exact lt_of_lt_of_le (ih _ _ _ _ h)
               (le_trans (List.dropWhile_sublist isDigitChar).length_le
                 (by simp only [List.length_cons]; omega)))
      | exact absurd h (by simp)

theorem matchNumTail_length (s : List Char) (acc ns : List Nat) (r : List Char)
    (h : matchNumTail s acc = some (ns, r)) : r.length < s.length :=
  matchNumTailF_length _ s acc ns r h

/-- Match the inline citation pattern `\[(\d+(?:,\d+)*)\]` at the start of the
input; returns the numbers and the remaining input. -/
def matchInline (s : List Char) : Option (List Nat × List Char) :=
  match s with
  | '[' :: rest =>
    if (rest.takeWhile isDigitChar).isEmpty then none
    else matchNumTail (rest.dropWhile isDigitChar) [digitsToNat (rest.takeWhile isDigitChar)]
  | _ => none

theorem matchInline_length (s : List Char) (ns : List Nat) (r : List Char)
    (h : matchInline s = some (ns, r)) : r.length < s.length := by
  rcases s with _ | ⟨c, rest⟩
  · exact absurd h (by simp [matchInline])
  · by_cases hc : c = '['
    · subst hc
      rw [show matchInline ('[' :: rest) =
          (if (rest.takeWhile isDigitChar).isEmpty then none
           else matchNumTail (rest.dropWhile isDigitChar)
             [digitsToNat (rest.takeWhile isDigitChar)]) from rfl] at h
      by_cases hds : (rest.takeWhile isDigitChar).isEmpty
      · rw [if_pos hds] at h; exact absurd h (by simp)
      · rw [if_neg hds] at h
        have h1 := matchNumTail_length _ _ _ _ h
        have h2 : (rest.dropWhile isDigitChar).length ≤ rest.length :=
          (List.dropWhile_sublist isDigitChar).length_le
        simp only [List.length_cons]
        omega
    · have hnone : matchInline (c :: rest) = none := by
        unfold matchInline
        split
        · rename_i heq
          injection heq with h1 h2
          exact absurd h1 hc
        · rfl
      rw [hnone] at h
      exact absurd h (by simp)

/-- Scanner implementing `re.finditer` for the inline pattern: scan left to right, emitting
`(start, end, numbers)` and continuing after each match.  A new inline match
can never begin inside a previous one (a match contains no `[` after its first
character), so advancing one character on failure is equivalent.  Structural
on `fuel` (= remaining length + 1) so that it reduces in the kernel. -/
def scanInlineF : Nat → List Char → Nat → List (Nat × Nat × List Nat)
  | 0, _, _ => []
  | fuel + 1, s, pos =>
    match s with
    | [] => []
    | c :: rest =>
      match matchInline (c :: rest) with
      | some (ns, r) =>
        let len := (c :: rest).length - r.length
        (pos, pos + len, ns) :: scanInlineF fuel r (pos + len)
      | none => scanInlineF fuel rest (pos + 1)

def scanInline (s : List Char) (pos : Nat) : List (Nat × Nat × List Nat) :=
  scanInlineF (s.length + 1) s pos

/-- Match the closing part `" \[(\d+)\]` of a block quote at the start of the
input; returns the citation number and the remaining input. -/
def matchBQClose (s : List Char) : Option (Nat × List Char) :=
  match s with
  | '"' :: ' ' :: '[' :: rest =>
    if (rest.takeWhile isDigitChar).isEmpty then none
    else
      match rest.dropWhile isDigitChar with
      | ']' :: rest2 => some (digitsToNat (rest.takeWhile isDigitChar), rest2)
      | _ => none
  | _ => none

theorem matchBQClose_length (s : List Char) (n : Nat) (r : List Char)
    (h : matchBQClose s = some (n, r)) : r.length < s.length := by
  unfold matchBQClose at h
  split at h
  · rename_i rest
    by_cases hds : (rest.takeWhile isDigitChar).isEmpty
    · rw [if_pos hds] at h; exact absurd h (by simp)
    · rw [if_neg hds] at h
      split at h
      · rename_i rest2 heq
        simp only [Option.some.injEq, Prod.mk.injEq] at h
        obtain ⟨_, hr⟩ := h
        subst hr
        have h2 : (rest.dropWhile isDigitChar).length ≤ rest.length :=
          (List.dropWhile_sublist isDigitChar).length_le
        rw [heq] at h2
        simp only [List.length_cons] at h2 ⊢
        omega
      · exact absurd h (by simp)
  · exact absurd h (by simp)

/-- The lazy body `(.*?)" \[(\d+)\]` of a block quote: at each position first
try to close (shortest match wins, as with a lazy quantifier), otherwise
consume one character into the quote content. -/
def bqBody : List Char → List Char → Option (List Char × Nat × List Char)
  | [], acc =>
    match matchBQClose [] with
    | some (n, rest) => some (acc.reverse, n, rest)
    | none => none
  | c :: rest, acc =>
    match matchBQClose (c :: rest) with
    | some (n, r2) => some (acc.reverse, n, r2)
    | none => bqBody rest (c :: acc)

theorem bqBody_length (s : List Char) (acc : List Char) :
    ∀ (q : List Char) (n : Nat) (r : List Char),
    bqBody s acc = some (q, n, r) → r.length < s.length := by
  induction s generalizing acc with
  | nil =>
    intro q n r h
    unfold bqBody at h
    have : matchBQClose [] = none := rfl
    rw [this] at h
    exact absurd h (by simp)
  | cons c rest ih =>
    intro q n r h
    unfold bqBody at h
    cases hm : matchBQClose (c :: rest) with
    | some p =>
      obtain ⟨n0, r0⟩ := p
      rw [hm] at h
      simp only [Option.some.injEq, Prod.mk.injEq] at h
      obtain ⟨_, _, hr⟩ := h
      subst hr
      exact matchBQClose_length _ _ _ hm
    | none =>
      rw [hm] at h
      have := ih (c :: acc) q n r h
      simp only [List.length_cons]
      omega

/-- Match the block-quote pattern `> "(.*?)" \[(\d+)\]` (DOTALL) at the start
of the input; returns the quote content, the citation number, and the rest. -/
def matchBQ (s : List Char) : Option (List Char × Nat × List Char) :=
  match s with
  | '>' :: ' ' :: '"' :: rest => bqBody rest []
  | _ => none

theorem matchBQ_length (s : List Char) (q : List Char) (n : Nat) (r : List Char)
    (h : matchBQ s = some (q, n, r)) : r.length < s.length := by
  unfold matchBQ at h
  split at h
  · rename_i rest
    have := bqBody_length rest [] q n r h
    simp only [List.length_cons]
    omega
  · exact absurd h (by simp)

/-- Scanner implementing `re.finditer` for the block-quote pattern (with `re.DOTALL`): scan left to
right, emitting `(start, end, content, number)` and continuing after each
match (overlapping starts inside a match are skipped, as `finditer` does).
Structural on `fuel` so that it reduces in the kernel. -/
def scanBQF : Nat → List Char → Nat → List (Nat × Nat × List Char × Nat)
  | 0, _, _ => []
  | fuel + 1, s, pos =>
    match s with
    | [] => []
    | c :: rest =>
      match matchBQ (c :: rest) with
      | some (q, n, r) =>
        let len := (c :: rest).length - r.length
        (pos, pos + len, q, n) :: scanBQF fuel r (pos + len)
      | none => scanBQF fuel rest (pos + 1)

def scanBQ (s : List Char) (pos : Nat) : List (Nat × Nat × List Char × Nat) :=
  scanBQF (s.length + 1) s pos

/-- Metadata dictionary: the keys the core reads/writes, each optional
(absent key = `none`).  Mirrors the open Python dicts used as
`chunk.metadata`. -/
structure Meta where
  documentId : Option (List Char) := none
  documentName : Option (List Char) := none
  pageNumber : Option Nat := none
  sectionIdx : Option Nat := none
  startChar : Option Nat := none
  endChar : Option Nat := none
  similarityScore : Option ℚ := none
  chunkMethod : Option (List Char) := none
  startPos : Option Nat := none
  endPos : Option Nat := none
  merged : Option Bool := none
  content : Option (List Char) := none
deriving DecidableEq, Repr, Inhabited

/-- Python `{**a, **b}`: right-biased union of two metadata dicts. -/
def Meta.union (a b : Meta) : Meta where
  documentId := (b.documentId).orElse (fun _ => a.documentId)
  documentName := (b.documentName).orElse (fun _ => a.documentName)
  pageNumber := (b.pageNumber).orElse (fun _ => a.pageNumber)
  sectionIdx := (b.sectionIdx).orElse (fun _ => a.sectionIdx)
  startChar := (b.startChar).orElse (fun _ => a.startChar)
  endChar := (b.endChar).orElse (fun _ => a.endChar)
  similarityScore := (b.similarityScore).orElse (fun _ => a.similarityScore)
  chunkMethod := (b.chunkMethod).orElse (fun _ => a.chunkMethod)
  startPos := (b.startPos).orElse (fun _ => a.startPos)
  endPos := (b.endPos).orElse (fun _ => a.endPos)
  merged := (b.merged).orElse (fun _ => a.merged)
  content := (b.content).orElse (fun _ => a.content)

/-- Model of `app/models/document.py` `DocumentChunk` (the fields the core uses). -/
structure DocumentChunk where
  id : List Char
  content : List Char
  chunkIndex : Nat := 0
  metadata : Meta := {}
deriving DecidableEq, Repr, Inhabited

/-- Model of `app/models/chat.py` `CitationLocation`. -/
structure CitationLocation where
  documentId : List Char
  documentName : List Char
  chunkId : List Char
  pageNumber : Option Nat := none
  sectionIdx : Option Nat := none
  startChar : Option Nat := none
  endChar : Option Nat := none
deriving DecidableEq, Repr, Inhabited

/-- The `quote_type` field: `"quote"` or `"reference"`. -/
inductive QuoteType where
  | quote
  | reference
deriving DecidableEq, Repr, Inhabited

/-- Model of `app/models/chat.py` `Annotation`.  The Python id is
`f"annotation_{uuid4().hex[:8]}"`; only its uniqueness matters, so it is
modeled as the creation index (a `Nat`). -/
structure Annotation where
  id : Nat
  citationNumber : Nat
  textSnippet : List Char
  sourceContent : List Char
  location : CitationLocation
  relevanceScore : ℚ
  quoteType : QuoteType
deriving DecidableEq, Repr, Inhabited

/-- Model of `app/models/chat.py` `AnnotatedText`.  `citationMap` is a Python dict
(insertion-ordered association list with in-place overwrite). -/
structure AnnotatedText where
  rawText : List Char
  formattedText : List Char
  annotations : List Annotation
  citationMap : List (Nat × Nat)
deriving DecidableEq, Repr, Inhabited

/-- Internal `ParsedCitation` dataclass of the citation parser. -/
structure ParsedCitation where
  numbers : List Nat
  startPos : Nat
  endPos : Nat
  textBefore : List Char
  textAfter : List Char
  isBlockQuote : Bool := false
  quoteContent : List Char := []
deriving DecidableEq, Repr, Inhabited

/-- Build a `ParsedCitation` for an inline match (`_find_citations`, first
loop). -/
def inlineCitation (text : List Char) (m : Nat × Nat × List Nat) : ParsedCitation where
  numbers := m.2.2
  startPos := m.1
  endPos := m.2.1
  textBefore := (text.take m.1).drop (m.1 - 50)
  textAfter := (text.drop m.2.1).take 50
  isBlockQuote := false
  quoteContent := []

/-- Build a `ParsedCitation` for a block-quote match (`_find_citations`,
second loop). -/
def bqCitation (text : List Char) (m : Nat × Nat × List Char × Nat) : ParsedCitation where
  numbers := [m.2.2.2]
  startPos := m.1
  endPos := m.2.1
  textBefore := (text.take m.1).drop (m.1 - 50)
  textAfter := (text.drop m.2.1).take 50
  isBlockQuote := true
  quoteContent := m.2.2.1

/-- Stable merge by `startPos` of the two (already sorted) match families:
Python `sorted(citations, key=lambda x: x.start_pos)` on the concatenation,
with inline citations listed first.  Structural on `fuel` so that it reduces
in the kernel. -/
def mergeCitationsF : Nat → List ParsedCitation → List ParsedCitation → List ParsedCitation
  | 0, _, _ => []
  | _ + 1, [], ys => ys
  | _ + 1, x :: xs, [] => x :: xs
  | fuel + 1, x :: xs, y :: ys =>
    if x.startPos ≤ y.startPos then x :: mergeCitationsF fuel xs (y :: ys)
    else y :: mergeCitationsF fuel (x :: xs) ys

def mergeCitations (xs ys : List ParsedCitation) : List ParsedCitation :=
  mergeCitationsF (xs.length + ys.length + 1) xs ys

/-- Embedding of `CitationParser._find_citations`. -/
def findCitations (text : List Char) : List ParsedCitation :=
  mergeCitations
    ((scanInline text 0).map (inlineCitation text))
    ((scanBQ text 0).map (bqCitation text))

/-- Python `'. ' in s` / `s.find('. ')`: index of the first occurrence. -/
def findDotSpace : List Char → Option Nat
  | '.' :: ' ' :: _ => some 0
  | _ :: rest => (findDotSpace rest).map (· + 1)
  | [] => none

/-- Python `s.rfind('. ')`: index of the last occurrence. -/
def rfindDotSpace : List Char → Option Nat
  | [] => none
  | c :: rest =>
    match rfindDotSpace rest with
    | some i => some (i + 1)
    | none => if c == '.' && rest.head? == some ' ' then some 0 else none

/-- The `re.sub(r'\[\d+(?:,\d+)*\]', '', snippet)` step of
`_extract_text_snippet`: delete every inline citation marker.  Structural on
`fuel` so that it reduces in the kernel. -/
def removeInlineF : Nat → List Char → List Char
  | 0, _ => []
  | fuel + 1, s =>
    match s with
    | [] => []
    | c :: rest =>
      match matchInline (c :: rest) with
      | some (_, r) => removeInlineF fuel r
      | none => c :: removeInlineF fuel rest

def removeInline (s : List Char) : List Char := removeInlineF (s.length + 1) s

/-- Embedding of `CitationParser._extract_text_snippet`. -/
def extractTextSnippet (text : List Char) (startPos endPos : Nat)
    (isBQ : Bool) (qc : List Char) : List Char :=
  if isBQ then qc
  else
    let ss := startPos - 100
    let se := min text.length (endPos + 100)
    let before := (text.take startPos).drop ss
    let after := (text.drop endPos).take (se - endPos)
    let sentStart :=
      match rfindDotSpace before with
      | some i => i + ss + 2
      | none => ss
    let sentEnd :=
      match findDotSpace after with
      | some i => i + endPos + 1
      | none => se
    let snippet := stripChars ((text.drop sentStart).take (sentEnd - sentStart))
    stripChars (removeInline snippet)

def strUnknown : List Char := "unknown".data

def strUnknownDocument : List Char := "Unknown Document".data

/-- Python list indexing `l[i]` with an `Int` index: negative indices wrap
from the end; out-of-range access is `none` (an `IndexError`). -/
def pyIdx {α : Type} (l : List α) (i : Int) : Option α :=
  if 0 ≤ i then l.get? i.toNat
  else if (-i).toNat ≤ l.length then l.get? (l.length - (-i).toNat)
  else none

/-- Build one `Annotation` from a resolved citation occurrence
(`_create_annotations` loop body).  `annId` is the creation index standing in
for the uuid. -/
def mkAnnotRecord (annId : Nat) (num : Nat) (cit : ParsedCitation)
    (chunk : DocumentChunk) (text : List Char) : Annotation where
  id := annId
  citationNumber := num
  textSnippet :=
    extractTextSnippet text cit.startPos cit.endPos cit.isBlockQuote cit.quoteContent
  sourceContent := chunk.content
  location :=
    { documentId := (chunk.metadata.documentId).getD strUnknown
      documentName := (chunk.metadata.documentName).getD strUnknownDocument
      chunkId := chunk.id
      pageNumber := chunk.metadata.pageNumber
      sectionIdx := chunk.metadata.sectionIdx
      startChar := chunk.metadata.startChar
      endChar := chunk.metadata.endChar }
  relevanceScore := (chunk.metadata.similarityScore).getD 0
  quoteType := if cit.isBlockQuote then QuoteType.quote else QuoteType.reference

/-- The flattened `(citation, citation_num)` pairs of the nested loops of
`_create_annotations`, in iteration order. -/
def citationPairs (cits : List ParsedCitation) : List (ParsedCitation × Nat) :=
  (cits.map (fun c => c.numbers.map (fun n => (c, n)))).flatten

/-- Loop body of `_create_annotations`: `counter` is the number of
annotations created so far (= the next annotation id).  The missing lower
bound on `citation_num` means `citation_num = 0` indexes `source_chunks[-1]`;
with an empty chunk list that raises `IndexError`, modeled as `.error ()`. -/
def createFromPairs (text : List Char) (chunks : List DocumentChunk) :
    List (ParsedCitation × Nat) → Nat → Except Unit (List Annotation)
  | [], _ => .ok []
  | (c, n) :: rest, counter =>
    if n ≤ chunks.length then
      match pyIdx chunks ((n : Int) - 1) with
      | none => .error ()
      | some chunk =>
        match createFromPairs text chunks rest (counter + 1) with
        | .error e => .error e
        | .ok anns => .ok (mkAnnotRecord counter n c chunk text :: anns)
    else createFromPairs text chunks rest counter

/-- Embedding of `CitationParser._create_annotations`. -/
def createAnnotations (cits : List ParsedCitation) (chunks : List DocumentChunk)
    (text : List Char) : Except Unit (List Annotation) :=
  createFromPairs text chunks (citationPairs cits) 0

/-- Python dict insert-or-overwrite (`d[k] = v`): replace in place if the key
exists, else append. -/
def dictUpsert (m : List (Nat × Nat)) (k v : Nat) : List (Nat × Nat) :=
  if m.any (fun p => p.1 == k) then
    m.map (fun p => if p.1 == k then (k, v) else p)
  else m ++ [(k, v)]

/-- Python `citation_map = {ann.citation_number: ann.id for ann in annotations}`:
a dict comprehension, i.e. repeated insert-or-overwrite in list order. -/
def buildCitationMap (anns : List Annotation) : List (Nat × Nat) :=
  anns.foldl (fun m a => dictUpsert m a.citationNumber a.id) []

/-- First-seen-wins grouping of annotations by citation number
(`citation_groups` in `_format_text_with_annotations`); values are the
annotation ids (the only group field the formatter reads). -/
def citationGroups (anns : List Annotation) : List (Nat × Nat) :=
  anns.foldl
    (fun g a => if g.any (fun p => p.1 == a.citationNumber) then g
                else g ++ [(a.citationNumber, a.id)]) []

def natRepr (n : Nat) : List Char := (Nat.repr n).data

/-- The `citation` HTML template, filled in. -/
def citeHtml (annId n : Nat) : List Char :=
  "<cite data-annotation=\"annotation_".data ++ natRepr annId
    ++ "\" data-citation=\"".data ++ natRepr n
    ++ "\" class=\"citation-link\">[".data ++ natRepr n ++ "]</cite>".data

/-- The `block_quote` HTML template, filled in. -/
def bqHtml (annId n : Nat) (content : List Char) : List Char :=
  "<blockquote data-annotation=\"annotation_".data ++ natRepr annId
    ++ "\" data-citation=\"".data ++ natRepr n
    ++ "\" class=\"citation-quote\">".data ++ content ++ "</blockquote>".data

/-- A verbatim `[n]` (unresolvable inline number, left as text). -/
def bracketed (n : Nat) : List Char := '[' :: natRepr n ++ [']']

/-- Replace `s[start:fin]` by `repl`. -/
def replaceSpan (s : List Char) (start fin : Nat) (repl : List Char) : List Char :=
  s.take start ++ repl ++ s.drop fin

/-- All html parts of one inline match, joined. -/
def inlineHtmlParts (groups : List (Nat × Nat)) (nums : List Nat) : List Char :=
  (nums.map (fun n =>
    match groups.lookup n with
    | some i => citeHtml i n
    | none => bracketed n)).flatten

/-- The inline-replacement pass of `_format_text_with_annotations`: matches
are found once, then replaced in reverse position order. -/
def applyInline (groups : List (Nat × Nat)) (s : List Char) : List Char :=
  (scanInline s 0).reverse.foldl
    (fun acc m => replaceSpan acc m.1 m.2.1 (inlineHtmlParts groups m.2.2)) s

/-- The block-quote replacement pass of `_format_text_with_annotations`,
run on the already inline-rewritten text. -/
def applyBQ (groups : List (Nat × Nat)) (s : List Char) : List Char :=
  (scanBQ s 0).reverse.foldl
    (fun acc m =>
      match groups.lookup m.2.2.2 with
      | some i => replaceSpan acc m.1 m.2.1 (bqHtml i m.2.2.2 m.2.2.1)
      | none => acc) s

/-- Embedding of `CitationParser._format_text_with_annotations`. -/
def formatTextWithAnnotations (text : List Char) (anns : List Annotation) : List Char :=
  applyBQ (citationGroups anns) (applyInline (citationGroups anns) text)

/-- Embedding of `CitationParser.parse_response`.  The `IndexError` reachable through
`_create_annotations` propagates out (nothing catches it), hence `Except`. -/
def parseResponse (text : List Char) (chunks : List DocumentChunk) :
    Except Unit AnnotatedText :=
  match createAnnotations (findCitations text) chunks text with
  | .error e => .error e
  | .ok anns =>
    .ok { rawText := text
          formattedText := formatTextWithAnnotations text anns
          annotations := anns
          citationMap := buildCitationMap anns }

theorem lookup_map_preserve (m : List (Nat × Nat)) (k v n : Nat) (hn : n ≠ k) :
    (m.map (fun p => if p.1 == k then (k, v) else p)).lookup n = m.lookup n := by
  induction m with
  | nil => rfl
  | cons p rest ih =>
    obtain ⟨pk, pv⟩ := p
    rw [List.map_cons]
    by_cases hp : pk = k
    · subst hp
      rw [if_pos (by simp)]
      rw [List.lookup_cons, List.lookup_cons]
      have hb : (n == pk) = false := by simpa using hn
      rw [hb]
      exact ih
    · rw [if_neg (by simpa using hp)]
      rw [List.lookup_cons, List.lookup_cons]
      cases hb : (n == pk) with
      | true => rfl
      | false => exact ih

theorem lookup_map_hit (m : List (Nat × Nat)) (k v : Nat)
    (h : m.any (fun p => p.1 == k)) :
    (m.map (fun p => if p.1 == k then (k, v) else p)).lookup k = some v := by
  induction m with
  | nil => simp at h
  | cons p rest ih =>
    obtain ⟨pk, pv⟩ := p
    rw [List.map_cons]
    by_cases hp : pk = k
    · subst hp
      rw [if_pos (by simp)]
      rw [List.lookup_cons]
      simp
    · rw [if_neg (by simpa using hp)]
      rw [List.lookup_cons]
      have hb : (k == pk) = false := by simpa using fun hq => hp hq.symm
      rw [hb]
      apply ih
      simp only [List.any_cons] at h
      have hb2 : (pk == k) = false := by simpa using hp
      rw [hb2] at h
      simpa using h

theorem lookup_none_of_not_any (m : List (Nat × Nat)) (k : Nat)
    (h : m.any (fun p => p.1 == k) = false) : m.lookup k = none := by
  induction m with
  | nil => rfl
  | cons p rest ih =>
    obtain ⟨pk, pv⟩ := p
    simp only [List.any_cons, Bool.or_eq_false_iff] at h
    obtain ⟨h1, h2⟩ := h
    rw [List.lookup_cons]
    have h1b : pk ≠ k := by simpa using h1
    have hb : (k == pk) = false := by simpa using fun hq => h1b hq.symm
    rw [hb]
    exact ih h2

/-- Lookup after a Python dict insert-or-overwrite. -/
theorem lookup_dictUpsert (m : List (Nat × Nat)) (k v n : Nat) :
    (dictUpsert m k v).lookup n = if n = k then some v else m.lookup n := by
  unfold dictUpsert
  by_cases ha : m.any (fun p => p.1 == k)
  · rw [if_pos ha]
    by_cases hn : n = k
    · subst hn; rw [if_pos rfl]; exact lookup_map_hit m n v ha
    · rw [if_neg hn]; exact lookup_map_preserve m k v n hn
  · rw [if_neg ha]
    rw [List.lookup_append]
    by_cases hn : n = k
    · subst hn
      rw [lookup_none_of_not_any m n (Bool.eq_false_iff.mpr ha)]
      simp [List.lookup_cons]
    · have hb : (n == k) = false := by simpa using hn
      simp [List.lookup_cons, hb, hn]

theorem lookup_foldl_upsert (anns : List Annotation) (m : List (Nat × Nat)) (n : Nat) :
    (anns.foldl (fun m a => dictUpsert m a.citationNumber a.id) m).lookup n =
      match anns.reverse.find? (fun a => a.citationNumber == n) with
      | some a => some a.id
      | none => m.lookup n := by
  induction anns generalizing m with
  | nil => simp
  | cons a t ih =>
    simp only [List.foldl_cons, List.reverse_cons, List.find?_append]
    rw [ih]
    cases hf : t.reverse.find? (fun a => a.citationNumber == n) with
    | some b => simp
    | none =>
      simp only [Option.none_or]
      rw [lookup_dictUpsert]
      by_cases hn : n = a.citationNumber
      · subst hn
        simp [List.find?_cons]
      · have hb : (a.citationNumber == n) = false := by simpa using fun h => hn h.symm
        simp [List.find?_cons, hb, hn]

/-! ### Claims about the citation parser -/

def chunkAlpha : DocumentChunk := { id := "cA".data, content := "Alpha content".data }

def chunkBeta : DocumentChunk := { id := "cB".data, content := "Beta content".data }

def inputZero : List Char := "[0]".data

def inputBlockQuote : List Char := "> \"exact phrase\" [2]".data

def inputRepeatOne : List Char := "a [1] b [1]".data

def phraseExact : List Char := "exact phrase".data

def phraseQuoted : List Char := "> \"exact phrase\"".data

/-- C1: the spec says a citation number `n` produces an Annotation exactly
when `1 ≤ n ≤ len(chunks)` and that `n = 0` is left unresolved with no
annotation.  The code's only guard is `citation_num <= len(source_chunks)`,
so `[0]` slips through and Python's negative indexing resolves
`source_chunks[-1]`: the marker `[0]` yields an Annotation with
`citation_number = 0` whose source is the LAST chunk — an invented source. -/
theorem c1_zero_marker_invents_last_chunk :
    (parseResponse inputZero [chunkAlpha, chunkBeta]).map
        (fun r => r.annotations.map (fun a => (a.citationNumber, a.sourceContent)))
      = .ok [(0, chunkBeta.content)] := by
  rfl

/-- C4: the spec says `parse_response` never raises, including on `[0]` and an
empty chunk list.  But `parse_response("[0]", [])` evaluates
`source_chunks[-1]` on an empty list and raises `IndexError` (modeled as
`.error ()`). -/
theorem c4_parse_raises_on_zero_with_empty_chunks :
    parseResponse inputZero [] = .error () := by
  rfl

/-- C2 counterexample: on `'> "exact phrase" [2]'` with two chunks the claim
announces exactly one Annotation; the code produces two, because the `[2]`
inside the block quote also matches the inline marker family. -/
theorem c2_counterexample :
    (parseResponse inputBlockQuote [chunkAlpha, chunkBeta]).map
        (fun r => r.annotations.length) = .ok 2 ∧
    ¬ (parseResponse inputBlockQuote [chunkAlpha, chunkBeta]).map
        (fun r => r.annotations.length) = .ok 1 := by
  constructor
  · rfl
  · intro h
    rw [show (parseResponse inputBlockQuote [chunkAlpha, chunkBeta]).map
        (fun r => r.annotations.length) = .ok 2 from rfl] at h
    simp at h

/-- C2 amended: the two marker families overlap.  The block-quote marker
produces a quote Annotation with the literal quoted text as snippet (listed
first, since its match starts earlier) and the inline `[2]` inside it
additionally produces a reference Annotation; both resolve to chunk 2. -/
theorem c2_block_quote_yields_quote_and_reference :
    (parseResponse inputBlockQuote [chunkAlpha, chunkBeta]).map
        (fun r => r.annotations.map
          (fun a => (a.citationNumber, a.quoteType, a.textSnippet, a.sourceContent)))
      = .ok [(2, QuoteType.quote, phraseExact, chunkBeta.content),
             (2, QuoteType.reference, phraseQuoted, chunkBeta.content)] := by
  rfl

/-- C3 counterexample: with `'a [1] b [1]'` and one chunk two Annotations are
created (ids 0 and 1, in creation order); the claim says `citation_map[1]` is
the id of the FIRST of them (0), but the dict comprehension keeps the LAST
(1). -/
theorem c3_counterexample :
    (parseResponse inputRepeatOne [chunkAlpha]).map
        (fun r => (r.citationMap.lookup 1, r.annotations.head?.map (fun a => a.id)))
      = .ok (some 1, some 0) ∧ (some 1 : Option Nat) ≠ some 0 := by
  exact ⟨rfl, by simp⟩

/-- C3 amended: `citation_map` has exactly one entry per distinct citation
number among the created Annotations — namely the id of the LAST Annotation
created for that number (Python dict comprehensions overwrite), not the
first. -/
theorem c3_citation_map_holds_last_id (text : List Char) (chunks : List DocumentChunk)
    (n : Nat) :
    (parseResponse text chunks).map (fun r => r.citationMap.lookup n)
      = (parseResponse text chunks).map
          (fun r => (r.annotations.reverse.find?
              (fun a => a.citationNumber == n)).map (fun a => a.id)) := by
  unfold parseResponse
  cases hc : createAnnotations (findCitations text) chunks text with
  | error e => rfl
  | ok anns =>
    simp only [Except.map]
    congr 1
    show (buildCitationMap anns).lookup n = _
    unfold buildCitationMap
    rw [lookup_foldl_upsert]
    cases hf : anns.reverse.find? (fun a => a.citationNumber == n) with
    | some a => rfl
    | none => rfl

/-! ## Text chunker (`app/utils/chunking.py`)

All loop-style functions take a `fuel` argument (always called with
`length + 1`, enough because every step consumes at least one character) so
that they are structurally recursive and reduce inside the kernel.  One
deliberate deviation: when `chunk_overlap >= chunk_size` the source's
sliding-window loop (`_simple_chunk`) never terminates (its `step` is ≤ 0 and
`start` never advances), so no value is returned at all; the embedding
returns `[]` there, and theorems that depend on the fallback path carry the
hypothesis `chunk_overlap < chunk_size`. -/

structure ChunkingOptions where
  chunkSize : Nat := 1000
  chunkOverlap : Nat := 200
  respectSentenceBoundaries : Bool := true
  respectParagraphBoundaries : Bool := true
  minChunkSize : Nat := 100
  maxChunkSize : Nat := 2000
deriving DecidableEq, Repr, Inhabited

def tagSectionIntact : List Char := "section_intact".data

def tagParagraph : List Char := "paragraph_boundary".data

def tagSentence : List Char := "sentence_boundary".data

def tagArbitrary : List Char := "arbitrary_split".data

def tagSimple : List Char := "simple_overlap".data

/-- Model of `re.sub(p+, r, text)` for a character class `p`: replace every maximal
run of `p`-characters by the single character `r`. -/
def collapseRunF (p : Char → Bool) (r : Char) : Nat → List Char → List Char
  | 0, _ => []
  | _ + 1, [] => []
  | fuel + 1, c :: cs =>
    if p c then r :: collapseRunF p r fuel (cs.dropWhile p)
    else c :: collapseRunF p r fuel cs

def collapseRun (p : Char → Bool) (r : Char) (s : List Char) : List Char :=
  collapseRunF p r (s.length + 1) s

/-- Model of `re.sub` with pattern `[.]{3,}` and replacement `...`: replace runs of three or more dots by
exactly three. -/
def reduceDotsF : Nat → List Char → List Char
  | 0, _ => []
  | _ + 1, [] => []
  | fuel + 1, c :: cs =>
    if c = '.' then
      (if 3 ≤ 1 + (cs.takeWhile (fun x => x == '.')).length then ['.', '.', '.']
       else List.replicate (1 + (cs.takeWhile (fun x => x == '.')).length) '.')
        ++ reduceDotsF fuel (cs.dropWhile (fun x => x == '.'))
    else c :: reduceDotsF fuel cs

def reduceDots (s : List Char) : List Char := reduceDotsF (s.length + 1) s

/-- Embedding of `TextChunker._preprocess_text`: collapse whitespace runs to a single
space, collapse newline/tab runs (no-ops after the first step), reduce dot
runs, strip. -/
def preprocess (t : List Char) : List Char :=
  stripChars (reduceDots
    (collapseRun (fun c => c == '\t') ' '
      (collapseRun (fun c => c == '\n') '\n'
        (collapseRun isPySpace ' ' t))))

/-- Python `str.split('\n')`. -/
def splitLinesF : Nat → List Char → List (List Char)
  | 0, s => [s]
  | fuel + 1, s =>
    match s.dropWhile (fun c => !(c == '\n')) with
    | [] => [s.takeWhile (fun c => !(c == '\n'))]
    | _ :: tail => s.takeWhile (fun c => !(c == '\n')) :: splitLinesF fuel tail

def splitLines (s : List Char) : List (List Char) := splitLinesF (s.length + 1) s

/-- Python `str.isupper()` (ASCII): at least one cased character and no
lowercase character. -/
def pyIsUpper (l : List Char) : Bool :=
  l.any (fun c => c.isUpper) && l.all (fun c => !(c.isLower))

/-- The `\s+[A-Z]` tail of the numbered-header regex. -/
def numberedHeaderSpace (r : List Char) : Bool :=
  if (r.takeWhile isPySpace).isEmpty then false
  else
    match r.dropWhile isPySpace with
    | c :: _ => 'A' ≤ c && c ≤ 'Z'
    | [] => false

/-- Model of `re.match(r'^\d+\.?\s+[A-Z]', line)`. -/
def numberedHeader (l : List Char) : Bool :=
  if (l.takeWhile isDigitChar).isEmpty then false
  else
    match l.dropWhile isDigitChar with
    | '.' :: t => numberedHeaderSpace t
    | t => numberedHeaderSpace t

/-- Embedding of `TextChunker._is_section_header`. -/
def isSectionHeader (line : List Char) : Bool :=
  ((stripChars line).head? == some '#')
  || (pyIsUpper (stripChars line) && decide (3 < (stripChars line).length)
       && ((stripChars line).getLast? == some ':'))
  || numberedHeader (stripChars line)

/-- The line-accumulating loop of `TextChunker._split_by_sections`. -/
def splitBySectionsAux : List (List Char) → List Char → List (List Char)
  | [], current => if (stripChars current).isEmpty then [] else [stripChars current]
  | line :: rest, current =>
    if isSectionHeader line then
      (if (stripChars current).isEmpty then [] else [stripChars current])
        ++ splitBySectionsAux rest (line ++ ['\n'])
    else splitBySectionsAux rest (current ++ line ++ ['\n'])

/-- Embedding of `TextChunker._split_by_sections` (`if not sections: return [text]`). -/
def splitBySections (t : List Char) : List (List Char) :=
  if (splitBySectionsAux (splitLines t) []).isEmpty then [t]
  else splitBySectionsAux (splitLines t) []

/-- Leftmost match of a start-anchored matcher `m` over the input: returns
the match position and matched text (`re.search`). -/
def searchMatch (m : List Char → Option (List Char)) : List Char → Option (Nat × List Char)
  | [] => none
  | c :: rest =>
    match m (c :: rest) with
    | some x => some (0, x)
    | none => (searchMatch m rest).map (fun q => (q.1 + 1, q.2))

/-- Generic `re.split` by the matcher `m`: cut out each successive leftmost match.
The guard (match inside bounds and nonempty) always holds for the matchers
used here; it only makes the recursion well-defined for arbitrary `m`. -/
def splitByPatF (m : List Char → Option (List Char)) : Nat → List Char → List (List Char)
  | 0, s => [s]
  | fuel + 1, s =>
    match searchMatch m s with
    | none => [s]
    | some (i, x) =>
      if i + x.length ≤ s.length ∧ 0 < x.length then
        s.take i :: splitByPatF m fuel (s.drop (i + x.length))
      else [s]

def splitByPat (m : List Char → Option (List Char)) (s : List Char) : List (List Char) :=
  splitByPatF m (s.length + 1) s

def isEnder (c : Char) : Bool := c == '.' || c == '!' || c == '?'

/-- Match `[.!?]+\s+` at the start of the input. -/
def matchSentEnd (s : List Char) : Option (List Char) :=
  if (s.takeWhile isEnder).isEmpty then none
  else if ((s.dropWhile isEnder).takeWhile isPySpace).isEmpty then none
  else some (s.takeWhile isEnder ++ (s.dropWhile isEnder).takeWhile isPySpace)

/-- Index of the last `'\n'` in the input, if any. -/
def lastNewlineIdx : List Char → Option Nat
  | [] => none
  | c :: rest =>
    match lastNewlineIdx rest with
    | some i => some (i + 1)
    | none => if c == '\n' then some 0 else none

/-- Match `\n\s*\n` at the start of the input (greedy `\s*`, backtracking to
the last `'\n'` of the whitespace run). -/
def matchParaBreak (s : List Char) : Option (List Char) :=
  match s with
  | '\n' :: rest =>
    match lastNewlineIdx (rest.takeWhile isPySpace) with
    | some j => some ('\n' :: (rest.takeWhile isPySpace).take (j + 1))
    | none => none
  | _ => none

def paragraphSplit (sec : List Char) : List (List Char) := splitByPat matchParaBreak sec

def sentenceSplitParts (t : List Char) : List (List Char) := splitByPat matchSentEnd t

/-- The reconstruction loop of `TextChunker._split_by_sentences`: walk the
`re.split` parts, re-finding each separator by searching the original text at
the offset `len(''.join(parts[:i+1]))`. -/
def sbsAux (text : List Char) : List (List Char) → Nat → List Char → List (List Char)
  | [], _, current =>
    if (stripChars current).isEmpty then [] else [stripChars current]
  | p :: rest, offset, current =>
    if rest.isEmpty then
      (if (stripChars (current ++ p)).isEmpty then [] else [stripChars (current ++ p)])
    else
      match searchMatch matchSentEnd (text.drop (offset + p.length)) with
      | some q => stripChars (current ++ p ++ q.2) :: sbsAux text rest (offset + p.length) []
      | none => sbsAux text rest (offset + p.length) (current ++ p)

/-- Embedding of `TextChunker._split_by_sentences`. -/
def splitBySentences (text : List Char) : List (List Char) :=
  sbsAux text (sentenceSplitParts text) 0 []

/-- Python `str.split()` (split on whitespace runs, dropping empties). -/
def splitWSF : Nat → List Char → List (List Char)
  | 0, _ => []
  | _ + 1, [] => []
  | fuel + 1, c :: cs =>
    if isPySpace c then splitWSF fuel cs
    else (c :: cs.takeWhile (fun x => !(isPySpace x)))
      :: splitWSF fuel (cs.dropWhile (fun x => !(isPySpace x)))

def splitWS (s : List Char) : List (List Char) := splitWSF (s.length + 1) s

/-- The id string `f"{document_id}_section_{section_idx}_chunk_{chunk_idx}"`. -/
def chunkIdStr (docId : List Char) (sectionIdx chunkIdx : Nat) : List Char :=
  docId ++ "_section_".data ++ natRepr sectionIdx ++ "_chunk_".data ++ natRepr chunkIdx

/-- A chunk as built inside the hierarchical chunker: `idIdx` feeds the id
string, `index` is the `chunk_index` field (= the local `len(chunks)` at
creation time). -/
def mkSecChunk (docId : List Char) (sectionIdx idIdx : Nat) (content : List Char)
    (index : Nat) (method : List Char) : DocumentChunk where
  id := chunkIdStr docId sectionIdx idIdx
  content := content
  chunkIndex := index
  metadata := { sectionIdx := some sectionIdx, chunkMethod := some method }

/-- The word loop of `TextChunker._split_sentence_arbitrarily`. -/
def ssaAux (opts : ChunkingOptions) (docId : List Char) (sectionIdx : Nat) :
    List (List Char) → List Char → List DocumentChunk → Nat → List DocumentChunk
  | [], current, chunks, chunkIdx =>
    if (stripChars current).isEmpty then chunks
    else chunks ++
      [mkSecChunk docId sectionIdx chunkIdx (stripChars current) chunks.length tagArbitrary]
  | w :: ws, current, chunks, chunkIdx =>
    if opts.chunkSize < current.length + w.length + 1 then
      if (stripChars current).isEmpty then
        ssaAux opts docId sectionIdx ws w chunks chunkIdx
      else
        ssaAux opts docId sectionIdx ws w
          (chunks ++
            [mkSecChunk docId sectionIdx chunkIdx (stripChars current) chunks.length tagArbitrary])
          (chunkIdx + 1)
    else if current.isEmpty then ssaAux opts docId sectionIdx ws w chunks chunkIdx
    else ssaAux opts docId sectionIdx ws (current ++ ' ' :: w) chunks chunkIdx

/-- Embedding of `TextChunker._split_sentence_arbitrarily`. -/
def splitSentenceArbitrarily (opts : ChunkingOptions) (docId : List Char)
    (sectionIdx startIdx : Nat) (s : List Char) : List DocumentChunk :=
  ssaAux opts docId sectionIdx (splitWS s) [] [] startIdx

/-- The sentence loop of `TextChunker._split_large_paragraph`. -/
def slpAux (opts : ChunkingOptions) (docId : List Char) (sectionIdx : Nat) :
    List (List Char) → List Char → List DocumentChunk → Nat → List DocumentChunk
  | [], current, chunks, chunkIdx =>
    if (stripChars current).isEmpty then chunks
    else chunks ++
      [mkSecChunk docId sectionIdx chunkIdx (stripChars current) chunks.length tagSentence]
  | s0 :: rest, current, chunks, chunkIdx =>
    if (stripChars s0).isEmpty then slpAux opts docId sectionIdx rest current chunks chunkIdx
    else if opts.chunkSize < current.length + (stripChars s0).length then
      if (stripChars current).isEmpty then
        if opts.maxChunkSize < (stripChars s0).length then
          slpAux opts docId sectionIdx rest []
            (chunks ++ splitSentenceArbitrarily opts docId sectionIdx chunkIdx (stripChars s0))
            (chunkIdx +
              (splitSentenceArbitrarily opts docId sectionIdx chunkIdx (stripChars s0)).length)
        else slpAux opts docId sectionIdx rest (stripChars s0) chunks chunkIdx
      else
        if opts.maxChunkSize < (stripChars s0).length then
          slpAux opts docId sectionIdx rest []
            ((chunks ++
              [mkSecChunk docId sectionIdx chunkIdx (stripChars current) chunks.length tagSentence])
              ++ splitSentenceArbitrarily opts docId sectionIdx (chunkIdx + 1) (stripChars s0))
            ((chunkIdx + 1) +
              (splitSentenceArbitrarily opts docId sectionIdx (chunkIdx + 1) (stripChars s0)).length)
        else
          slpAux opts docId sectionIdx rest (stripChars s0)
            (chunks ++
              [mkSecChunk docId sectionIdx chunkIdx (stripChars current) chunks.length tagSentence])
            (chunkIdx + 1)
    else if current.isEmpty then slpAux opts docId sectionIdx rest (stripChars s0) chunks chunkIdx
    else slpAux opts docId sectionIdx rest (current ++ ' ' :: stripChars s0) chunks chunkIdx

/-- Embedding of `TextChunker._split_large_paragraph`. -/
def splitLargeParagraph (opts : ChunkingOptions) (docId : List Char)
    (sectionIdx startIdx : Nat) (p : List Char) : List DocumentChunk :=
  slpAux opts docId sectionIdx (splitBySentences p) [] [] startIdx

/-- The paragraph loop of `TextChunker._chunk_section`. -/
def csAux (opts : ChunkingOptions) (docId : List Char) (sectionIdx : Nat) :
    List (List Char) → List Char → List DocumentChunk → Nat → List DocumentChunk
  | [], current, chunks, chunkIdx =>
    if (stripChars current).isEmpty then chunks
    else chunks ++
      [mkSecChunk docId sectionIdx chunkIdx (stripChars current) chunks.length tagParagraph]
  | p0 :: rest, current, chunks, chunkIdx =>
    if (stripChars p0).isEmpty then csAux opts docId sectionIdx rest current chunks chunkIdx
    else if opts.chunkSize < current.length + (stripChars p0).length then
      if (stripChars current).isEmpty then
        if opts.maxChunkSize < (stripChars p0).length then
          csAux opts docId sectionIdx rest []
            (chunks ++ splitLargeParagraph opts docId sectionIdx chunkIdx (stripChars p0))
            (chunkIdx +
              (splitLargeParagraph opts docId sectionIdx chunkIdx (stripChars p0)).length)
        else csAux opts docId sectionIdx rest (stripChars p0) chunks chunkIdx
      else
        if opts.maxChunkSize < (stripChars p0).length then
          csAux opts docId sectionIdx rest []
            ((chunks ++
              [mkSecChunk docId sectionIdx chunkIdx (stripChars current) chunks.length tagParagraph])
              ++ splitLargeParagraph opts docId sectionIdx (chunkIdx + 1) (stripChars p0))
            ((chunkIdx + 1) +
              (splitLargeParagraph opts docId sectionIdx (chunkIdx + 1) (stripChars p0)).length)
        else
          csAux opts docId sectionIdx rest (stripChars p0)
            (chunks ++
              [mkSecChunk docId sectionIdx chunkIdx (stripChars current) chunks.length tagParagraph])
            (chunkIdx + 1)
    else if current.isEmpty then csAux opts docId sectionIdx rest (stripChars p0) chunks chunkIdx
    else csAux opts docId sectionIdx rest (current ++ '\n' :: '\n' :: stripChars p0) chunks chunkIdx

/-- Embedding of `TextChunker._chunk_section`. -/
def chunkSection (opts : ChunkingOptions) (docId : List Char) (sectionIdx : Nat)
    (sec : List Char) : List DocumentChunk :=
  if sec.length ≤ opts.chunkSize then
    [mkSecChunk docId sectionIdx 0 sec 0 tagSectionIntact]
  else csAux opts docId sectionIdx (paragraphSplit sec) [] [] 0

/-- The enumerate loop of `TextChunker._hierarchical_chunk`. -/
def hierAux (opts : ChunkingOptions) (docId : List Char) :
    Nat → List (List Char) → List DocumentChunk
  | _, [] => []
  | i, sec :: rest => chunkSection opts docId i sec ++ hierAux opts docId (i + 1) rest

/-- Embedding of `TextChunker._hierarchical_chunk`. -/
def hierarchicalChunk (t : List Char) (opts : ChunkingOptions) (docId : List Char) :
    List DocumentChunk :=
  hierAux opts docId 0 (splitBySections t)

/-- End offset (relative to the input) of the last `re.finditer` match of
`[.!?]+\s+`, if any. -/
def lastEndingEndF : Nat → List Char → Nat → Option Nat → Option Nat
  | 0, _, _, best => best
  | fuel + 1, s, base, best =>
    match searchMatch matchSentEnd s with
    | none => best
    | some (i, x) =>
      lastEndingEndF fuel (s.drop (i + x.length)) (base + i + x.length)
        (some (base + i + x.length))

def lastEndingEnd (s : List Char) : Option Nat := lastEndingEndF (s.length + 1) s 0 none

/-- The (possibly sentence-snapped) end position of the sliding window
starting at `start` (`_simple_chunk`, the `respect_sentence_boundaries`
branch).  `int(chunk_size * 0.8)` is modeled as `chunk_size * 4 / 5`. -/
def snapEnd (opts : ChunkingOptions) (t : List Char) (start : Nat) : Nat :=
  if start + opts.chunkSize < t.length ∧ opts.respectSentenceBoundaries = true then
    match lastEndingEnd ((t.drop (start + opts.chunkSize * 4 / 5)).take
        (min (start + opts.chunkSize) t.length - (start + opts.chunkSize * 4 / 5))) with
    | some e => start + opts.chunkSize * 4 / 5 + e
    | none => start + opts.chunkSize
  else start + opts.chunkSize

/-- The value `text[start:end].strip()` for the window starting at `start`. -/
def windowContent (opts : ChunkingOptions) (t : List Char) (start : Nat) : List Char :=
  stripChars ((t.drop start).take (snapEnd opts t start - start))

/-- The sliding-window loop of `TextChunker._simple_chunk`. -/
def simpleLoopF (opts : ChunkingOptions) (docId : List Char) (t : List Char) (step : Nat) :
    Nat → Nat → Nat → List DocumentChunk
  | 0, _, _ => []
  | fuel + 1, start, chunkIdx =>
    if t.length ≤ start then []
    else if ¬ (windowContent opts t start).isEmpty
         ∧ opts.minChunkSize ≤ (windowContent opts t start).length then
      { id := docId ++ "_chunk_".data ++ natRepr chunkIdx
        content := windowContent opts t start
        chunkIndex := chunkIdx
        metadata := { startPos := some start, endPos := some (snapEnd opts t start),
                      chunkMethod := some tagSimple } }
        :: simpleLoopF opts docId t step fuel (start + step) (chunkIdx + 1)
    else simpleLoopF opts docId t step fuel (start + step) chunkIdx

/-- Embedding of `TextChunker._simple_chunk` (returns `[]` for the nonterminating
`step ≤ 0` configurations; see the section comment). -/
def simpleChunk (t : List Char) (opts : ChunkingOptions) (docId : List Char) :
    List DocumentChunk :=
  if opts.chunkSize ≤ opts.chunkOverlap then []
  else simpleLoopF opts docId t (opts.chunkSize - opts.chunkOverlap) (t.length + 1) 0 0

/-- Embedding of `TextChunker._needs_rechunking`. -/
def needsRechunking (chunks : List DocumentChunk) (opts : ChunkingOptions) : Bool :=
  chunks.isEmpty ||
  chunks.any (fun c => decide (c.content.length < opts.minChunkSize)
    || decide (opts.maxChunkSize < c.content.length))

/-- The merge loop of `TextChunker._post_process_chunks`. -/
def mergeSmall (opts : ChunkingOptions) : List DocumentChunk → List DocumentChunk
  | [] => []
  | [c] => [c]
  | c :: d :: rest =>
    if c.content.length < opts.minChunkSize ∧
       c.content.length + d.content.length ≤ opts.maxChunkSize then
      { id := c.id
        content := c.content ++ '\n' :: '\n' :: d.content
        chunkIndex := c.chunkIndex
        metadata := { Meta.union c.metadata d.metadata with merged := some true } }
        :: mergeSmall opts rest
    else c :: mergeSmall opts (d :: rest)

/-- The final `enumerate` reindexing of `_post_process_chunks`. -/
def reindexFrom : Nat → List DocumentChunk → List DocumentChunk
  | _, [] => []
  | i, c :: rest => { c with chunkIndex := i } :: reindexFrom (i + 1) rest

/-- Embedding of `TextChunker._post_process_chunks`. -/
def postProcessChunks (chunks : List DocumentChunk) (opts : ChunkingOptions) :
    List DocumentChunk :=
  if chunks.isEmpty then chunks else reindexFrom 0 (mergeSmall opts chunks)

/-- Embedding of `TextChunker.chunk_text` (with an explicit `options`; the Python wrapper
merely builds the default `ChunkingOptions` from `chunk_size`/`chunk_overlap`
when none is passed). -/
def chunkText (text : List Char) (opts : ChunkingOptions) (docId : List Char) :
    List DocumentChunk :=
  if (stripChars text).isEmpty then []
  else if (hierarchicalChunk (preprocess text) opts docId).isEmpty
       || needsRechunking (hierarchicalChunk (preprocess text) opts docId) opts then
    postProcessChunks (simpleChunk (preprocess text) opts docId) opts
  else postProcessChunks (hierarchicalChunk (preprocess text) opts docId) opts

theorem reindexFrom_map_chunkIndex (i : Nat) (l : List DocumentChunk) :
    (reindexFrom i l).map (fun c => c.chunkIndex) = List.range' i l.length := by
  induction l generalizing i with
  | nil => simp [reindexFrom]
  | cons c rest ih => simp [reindexFrom, ih, List.range'_succ]

theorem reindexFrom_length (i : Nat) (l : List DocumentChunk) :
    (reindexFrom i l).length = l.length := by
  induction l generalizing i with
  | nil => rfl
  | cons c rest ih => simp [reindexFrom, ih]

/-- C8: after post-processing, the `chunk_index` values of the returned list
form the gap-free strictly increasing sequence `0, 1, ..., n-1` — chunk `i`
of the list carries `chunk_index = i` (the final `enumerate` reassignment of
`_post_process_chunks` guarantees it on both pipeline paths). -/
theorem c8_chunk_index_contiguous (text : List Char) (opts : ChunkingOptions)
    (docId : List Char) :
    (chunkText text opts docId).map (fun c => c.chunkIndex)
      = List.range (chunkText text opts docId).length := by
  unfold chunkText
  by_cases h0 : (stripChars text).isEmpty
  · simp [h0]
  · rw [if_neg h0]
    by_cases hcond : ((hierarchicalChunk (preprocess text) opts docId).isEmpty
        || needsRechunking (hierarchicalChunk (preprocess text) opts docId) opts) = true
    · rw [if_pos hcond]
      unfold postProcessChunks
      by_cases he : (simpleChunk (preprocess text) opts docId).isEmpty
      · rw [if_pos he]
        have : simpleChunk (preprocess text) opts docId = [] := by
          simpa using he
        rw [this]; rfl
      · rw [if_neg he, reindexFrom_map_chunkIndex, reindexFrom_length,
            List.range_eq_range']
    · rw [if_neg hcond]
      unfold postProcessChunks
      by_cases he : (hierarchicalChunk (preprocess text) opts docId).isEmpty
      · rw [if_pos he]
        have : hierarchicalChunk (preprocess text) opts docId = [] := by
          simpa using he
        rw [this]; rfl
      · rw [if_neg he, reindexFrom_map_chunkIndex, reindexFrom_length,
            List.range_eq_range']

theorem matchSentEnd_length (u : List Char) (x : List Char)
    (h : matchSentEnd u = some x) : x.length ≤ u.length := by
  unfold matchSentEnd at h
  by_cases h1 : (u.takeWhile isEnder).isEmpty
  · rw [if_pos h1] at h; exact absurd h (by simp)
  · rw [if_neg h1] at h
    by_cases h2 : ((u.dropWhile isEnder).takeWhile isPySpace).isEmpty
    · rw [if_pos h2] at h; exact absurd h (by simp)
    · rw [if_neg h2] at h
      simp only [Option.some.injEq] at h
      subst h
      have e1 : (u.takeWhile isEnder).length + (u.dropWhile isEnder).length = u.length := by
        rw [← List.length_append, List.takeWhile_append_dropWhile]
      have e2 : ((u.dropWhile isEnder).takeWhile isPySpace).length
          ≤ (u.dropWhile isEnder).length := (List.takeWhile_sublist _).length_le
      rw [List.length_append]
      omega

theorem searchMatch_length (m : List Char → Option (List Char))
    (hm : ∀ u x, m u = some x → x.length ≤ u.length) :
    ∀ (s : List Char) (i : Nat) (x : List Char),
    searchMatch m s = some (i, x) → i + x.length ≤ s.length := by
  intro s
  induction s with
  | nil => intro i x h; exact absurd h (by simp [searchMatch])
  | cons c rest ih =>
    intro i x h
    unfold searchMatch at h
    cases hmc : m (c :: rest) with
    | some y =>
      rw [hmc] at h
      simp only [Option.some.injEq, Prod.mk.injEq] at h
      obtain ⟨hi, hx⟩ := h
      subst hi; subst hx
      simpa using hm _ _ hmc
    | none =>
      rw [hmc] at h
      cases hs : searchMatch m rest with
      | none => rw [hs] at h; exact absurd h (by simp)
      | some q =>
        rw [hs] at h
        have h2 : q.1 + 1 = i ∧ q.2 = x := by
          simpa using h
        obtain ⟨hi, hx⟩ := h2
        have hb := ih q.1 q.2 (by rw [hs])
        rw [← hi, ← hx]
        simp only [List.length_cons]
        omega

theorem lastEndingEndF_le (fuel : Nat) :
    ∀ (s : List Char) (base : Nat) (best : Option Nat),
    (∀ b, best = some b → b ≤ base) →
    ∀ e, lastEndingEndF fuel s base best = some e → e ≤ base + s.length := by
  induction fuel with
  | zero =>
    intro s base best hbest e h
    simp only [lastEndingEndF] at h
    exact le_trans (hbest e h) (Nat.le_add_right _ _)
  | succ fuel ih =>
    intro s base best hbest e h
    unfold lastEndingEndF at h
    cases hs : searchMatch matchSentEnd s with
    | none =>
      rw [hs] at h
      exact le_trans (hbest e h) (Nat.le_add_right _ _)
    | some q =>
      rw [hs] at h
      have hq : q.1 + q.2.length ≤ s.length :=
        searchMatch_length matchSentEnd matchSentEnd_length s q.1 q.2 (by rw [hs])
      have he := ih (s.drop (q.1 + q.2.length)) (base + q.1 + q.2.length)
        (some (base + q.1 + q.2.length)) (by intro b hb; injection hb with hb; omega) e
        (by rw [← h])
      rw [List.length_drop] at he
      omega

theorem lastEndingEnd_le (s : List Char) (e : Nat) (h : lastEndingEnd s = some e) :
    e ≤ s.length := by
  have := lastEndingEndF_le (s.length + 1) s 0 none (by intro b hb; exact absurd hb (by simp)) e h
  omega

theorem start_le_snapEnd (opts : ChunkingOptions) (t : List Char) (start : Nat) :
    start ≤ snapEnd opts t start := by
  unfold snapEnd
  split
  · cases hl : lastEndingEnd ((t.drop (start + opts.chunkSize * 4 / 5)).take
        (min (start + opts.chunkSize) t.length - (start + opts.chunkSize * 4 / 5))) with
    | none => exact Nat.le_add_right _ _
    | some e =>
      show start ≤ start + opts.chunkSize * 4 / 5 + e
      omega
  · exact Nat.le_add_right _ _

theorem snapEnd_le (opts : ChunkingOptions) (t : List Char) (start : Nat) :
    snapEnd opts t start ≤ start + opts.chunkSize := by
  unfold snapEnd
  split
  · cases hl : lastEndingEnd ((t.drop (start + opts.chunkSize * 4 / 5)).take
        (min (start + opts.chunkSize) t.length - (start + opts.chunkSize * 4 / 5))) with
    | none => exact le_refl _
    | some e =>
      show start + opts.chunkSize * 4 / 5 + e ≤ start + opts.chunkSize
      have he := lastEndingEnd_le _ _ hl
      have hlen : ((t.drop (start + opts.chunkSize * 4 / 5)).take
          (min (start + opts.chunkSize) t.length - (start + opts.chunkSize * 4 / 5))).length
          ≤ min (start + opts.chunkSize) t.length - (start + opts.chunkSize * 4 / 5) :=
        List.length_take_le _ _
      have hmin : min (start + opts.chunkSize) t.length ≤ start + opts.chunkSize :=
        Nat.min_le_left _ _
      omega
  · exact le_refl _

theorem windowContent_le_chunkSize (opts : ChunkingOptions) (t : List Char) (start : Nat) :
    (windowContent opts t start).length ≤ opts.chunkSize := by
  unfold windowContent
  have h1 : ((t.drop start).take (snapEnd opts t start - start)).length
      ≤ snapEnd opts t start - start := List.length_take_le _ _
  have h2 := snapEnd_le opts t start
  have h3 := stripChars_length_le ((t.drop start).take (snapEnd opts t start - start))
  omega

theorem windowContent_le_text (opts : ChunkingOptions) (t : List Char) (start : Nat) :
    (windowContent opts t start).length ≤ t.length := by
  unfold windowContent
  have h1 : ((t.drop start).take (snapEnd opts t start - start)).length
      ≤ (t.drop start).length := (List.take_sublist _ _).length_le
  have h2 : (t.drop start).length ≤ t.length := (List.drop_sublist _ _).length_le
  have h3 := stripChars_length_le ((t.drop start).take (snapEnd opts t start - start))
  omega

/-- Every chunk emitted by the sliding-window loop has content
`≥ min_chunk_size`, `≤ chunk_size` and `≤ len(text)`, and carries its window
offsets in its metadata. -/
theorem simpleLoopF_mem (opts : ChunkingOptions) (docId : List Char) (t : List Char)
    (step : Nat) (fuel : Nat) :
    ∀ (start chunkIdx : Nat) (c : DocumentChunk),
    c ∈ simpleLoopF opts docId t step fuel start chunkIdx →
    opts.minChunkSize ≤ c.content.length ∧ c.content.length ≤ opts.chunkSize ∧
    c.content.length ≤ t.length ∧
    ∃ s, c.metadata.startPos = some s ∧ start ≤ s ∧
      c.metadata.endPos = some (snapEnd opts t s) ∧
      c.content = windowContent opts t s := by
  induction fuel with
  | zero => intro start chunkIdx c hc; exact absurd hc (by simp [simpleLoopF])
  | succ fuel ih =>
    intro start chunkIdx c hc
    unfold simpleLoopF at hc
    by_cases hend : t.length ≤ start
    · rw [if_pos hend] at hc; exact absurd hc (by simp)
    · rw [if_neg hend] at hc
      by_cases hkeep : ¬ (windowContent opts t start).isEmpty
          ∧ opts.minChunkSize ≤ (windowContent opts t start).length
      · rw [if_pos hkeep] at hc
        rcases List.mem_cons.mp hc with rfl | hc
        · refine ⟨hkeep.2, windowContent_le_chunkSize opts t start,
            windowContent_le_text opts t start, start, rfl, le_refl _, rfl, rfl⟩
        · obtain ⟨h1, h2, h3, s, hs1, hs2, hs3, hs4⟩ := ih (start + step) (chunkIdx + 1) c hc
          exact ⟨h1, h2, h3, s, hs1, by omega, hs3, hs4⟩
      · rw [if_neg hkeep] at hc
        obtain ⟨h1, h2, h3, s, hs1, hs2, hs3, hs4⟩ := ih (start + step) chunkIdx c hc
        exact ⟨h1, h2, h3, s, hs1, by omega, hs3, hs4⟩

theorem simpleChunk_mem (t : List Char) (opts : ChunkingOptions) (docId : List Char)
    (c : DocumentChunk) (hc : c ∈ simpleChunk t opts docId) :
    opts.minChunkSize ≤ c.content.length ∧ c.content.length ≤ opts.chunkSize ∧
    c.content.length ≤ t.length := by
  unfold simpleChunk at hc
  by_cases hov : opts.chunkSize ≤ opts.chunkOverlap
  · rw [if_pos hov] at hc; exact absurd hc (by simp)
  · rw [if_neg hov] at hc
    obtain ⟨h1, h2, h3, _⟩ := simpleLoopF_mem opts docId t _ _ _ _ c hc
    exact ⟨h1, h2, h3⟩

/-- When no chunk is below `min_chunk_size`, the merge loop of
`_post_process_chunks` never fires. -/
theorem mergeSmall_of_no_small (opts : ChunkingOptions) :
    ∀ (l : List DocumentChunk),
    (∀ c ∈ l, opts.minChunkSize ≤ c.content.length) → mergeSmall opts l = l := by
  intro l
  induction l with
  | nil => intro _; rfl
  | cons c rest ih =>
    intro hall
    cases rest with
    | nil => rfl
    | cons d rest2 =>
      unfold mergeSmall
      rw [if_neg]
      · have := ih (fun a ha => hall a (List.mem_cons_of_mem c ha))
        rw [this]
      · intro hcon
        have hmin := hall c (List.mem_cons_self c _)
        omega

theorem mem_reindexFrom (i : Nat) (l : List DocumentChunk) (c : DocumentChunk)
    (hc : c ∈ reindexFrom i l) : ∃ c' ∈ l, c.content = c'.content := by
  induction l generalizing i with
  | nil => exact absurd hc (by simp [reindexFrom])
  | cons a rest ih =>
    unfold reindexFrom at hc
    rcases List.mem_cons.mp hc with rfl | hc
    · exact ⟨a, List.mem_cons_self a rest, rfl⟩
    · obtain ⟨c', hc', he⟩ := ih (i + 1) hc
      exact ⟨c', List.mem_cons_of_mem a hc', he⟩

/-- Through `_post_process_chunks`, when every input chunk is within bounds
the merge never fires and every output content is an input content. -/
theorem postProcess_mem (opts : ChunkingOptions) (l : List DocumentChunk)
    (hall : ∀ c ∈ l, opts.minChunkSize ≤ c.content.length)
    (c : DocumentChunk) (hc : c ∈ postProcessChunks l opts) :
    ∃ c' ∈ l, c.content = c'.content := by
  unfold postProcessChunks at hc
  by_cases he : l.isEmpty
  · rw [if_pos he] at hc
    exact absurd hc (by cases l with | nil => simp | cons a b => simp at he)
  · rw [if_neg he, mergeSmall_of_no_small opts l hall] at hc
    exact mem_reindexFrom 0 l c hc

theorem needsRechunking_false_bounds (l : List DocumentChunk) (opts : ChunkingOptions)
    (h : needsRechunking l opts = false) :
    ∀ c ∈ l, opts.minChunkSize ≤ c.content.length ∧ c.content.length ≤ opts.maxChunkSize := by
  intro c hc
  unfold needsRechunking at h
  rw [Bool.or_eq_false_iff] at h
  obtain ⟨_, hany⟩ := h
  have := List.any_eq_false.mp hany c hc
  rw [Bool.not_eq_true, Bool.or_eq_false_iff] at this
  obtain ⟨h1, h2⟩ := this
  constructor
  · have := of_decide_eq_false h1
    omega
  · have := of_decide_eq_false h2
    omega

/-- C5, amended: provided `chunk_overlap < chunk_size` (the source's fallback
loop does not terminate otherwise) and `chunk_size ≤ max_chunk_size`, every
chunk returned by `chunk_text` has `min_chunk_size ≤ len(content) ≤
max_chunk_size` — in particular all but possibly the final chunk are
`≥ min_chunk_size`, and every chunk is `≤ max_chunk_size`. -/
theorem c5_chunk_bounds (text : List Char) (opts : ChunkingOptions) (docId : List Char)
    (hov : opts.chunkOverlap < opts.chunkSize)
    (hcm : opts.chunkSize ≤ opts.maxChunkSize) :
    ∀ c ∈ chunkText text opts docId,
    opts.minChunkSize ≤ c.content.length ∧ c.content.length ≤ opts.maxChunkSize := by
  intro c hc
  unfold chunkText at hc
  by_cases h0 : (stripChars text).isEmpty
  · rw [if_pos h0] at hc; exact absurd hc (by simp)
  · rw [if_neg h0] at hc
    by_cases hcond : ((hierarchicalChunk (preprocess text) opts docId).isEmpty
        || needsRechunking (hierarchicalChunk (preprocess text) opts docId) opts) = true
    · rw [if_pos hcond] at hc
      have hsimple : ∀ a ∈ simpleChunk (preprocess text) opts docId,
          opts.minChunkSize ≤ a.content.length := by
        intro a ha
        exact (simpleChunk_mem _ opts docId a ha).1
      obtain ⟨c', hc', he⟩ := postProcess_mem opts _ hsimple c hc
      have hb := simpleChunk_mem _ opts docId c' hc'
      rw [he]
      exact ⟨hb.1, le_trans hb.2.1 hcm⟩
    · rw [if_neg hcond] at hc
      rw [Bool.not_eq_true, Bool.or_eq_false_iff] at hcond
      have hbounds := needsRechunking_false_bounds _ opts hcond.2
      obtain ⟨c', hc', he⟩ := postProcess_mem opts _ (fun a ha => (hbounds a ha).1) c hc
      rw [he]
      exact hbounds c' hc'

def sampleText : List Char :=
  "Hello world. This is a test of the chunker. It has sentences.".data

/-- Witness for `c5_chunk_bounds` at a concrete input. -/
theorem c5_chunk_bounds_witness :
    (({ chunkSize := 30, chunkOverlap := 5, minChunkSize := 5, maxChunkSize := 40 }
        : ChunkingOptions).chunkOverlap < 30 ∧ (30 : Nat) ≤ 40) ∧
    ∀ c ∈ chunkText sampleText
        { chunkSize := 30, chunkOverlap := 5, minChunkSize := 5, maxChunkSize := 40 } [],
      5 ≤ c.content.length ∧ c.content.length ≤ 40 :=
  ⟨⟨by decide, by decide⟩,
    c5_chunk_bounds sampleText
      { chunkSize := 30, chunkOverlap := 5, minChunkSize := 5, maxChunkSize := 40 } []
      (by decide) (by decide)⟩

def inputFiveAs : List Char := "aaaaa".data

def optsOversize : ChunkingOptions :=
  { chunkSize := 5, chunkOverlap := 0, minChunkSize := 1, maxChunkSize := 3 }

/-- C5 counterexample: with `chunk_size = 5 > max_chunk_size = 3` the
single-section text `"aaaaa"` fails the rechunking check, and the sliding
window then emits a 5-character chunk with no `max_chunk_size` cap: the
returned chunk violates `len(content) ≤ max_chunk_size`. -/
theorem c5_counterexample :
    ¬ (∀ c ∈ chunkText inputFiveAs optsOversize [],
        c.content.length ≤ optsOversize.maxChunkSize) := by
  intro h
  have := h ((chunkText inputFiveAs optsOversize []).head (by decide))
    (by exact List.head_mem _)
  revert this
  decide

theorem splitWSF_mem_length (fuel : Nat) :
    ∀ (s : List Char) (w : List Char), w ∈ splitWSF fuel s → w.length ≤ s.length := by
  induction fuel with
  | zero => intro s w hw; exact absurd hw (by simp [splitWSF])
  | succ fuel ih =>
    intro s w hw
    cases s with
    | nil => exact absurd hw (by simp [splitWSF])
    | cons c cs =>
      unfold splitWSF at hw
      by_cases hc : isPySpace c
      · rw [if_pos hc] at hw
        exact le_trans (ih cs w hw) (by simp)
      · rw [if_neg hc] at hw
        rcases List.mem_cons.mp hw with rfl | hw
        · have : (cs.takeWhile (fun x => !(isPySpace x))).length ≤ cs.length :=
            (List.takeWhile_sublist _).length_le
          simp only [List.length_cons]
          omega
        · have h1 := ih _ w hw
          have h2 : (cs.dropWhile (fun x => !(isPySpace x))).length ≤ cs.length :=
            (List.dropWhile_sublist _).length_le
          simp only [List.length_cons]
          omega

theorem ssaAux_mem (opts : ChunkingOptions) (docId : List Char) (sectionIdx : Nat)
    (B : Nat) :
    ∀ (ws : List (List Char)) (current : List Char) (chunks : List DocumentChunk) (ci : Nat),
    (∀ w ∈ ws, w.length ≤ B) → current.length ≤ max opts.chunkSize B →
    ∀ c ∈ ssaAux opts docId sectionIdx ws current chunks ci,
    c ∈ chunks ∨ c.content.length ≤ max opts.chunkSize B := by
  intro ws
  induction ws with
  | nil =>
    intro current chunks ci _ hcur c hc
    unfold ssaAux at hc
    by_cases he : (stripChars current).isEmpty
    · rw [if_pos he] at hc; exact Or.inl hc
    · rw [if_neg he] at hc
      rcases List.mem_append.mp hc with hc | hc
      · exact Or.inl hc
      · right
        have : c = mkSecChunk docId sectionIdx ci (stripChars current) chunks.length
            tagArbitrary := by simpa using hc
        rw [this]
        exact le_trans (stripChars_length_le current) hcur
  | cons w ws ih =>
    intro current chunks ci hws hcur c hc
    have hwB : w.length ≤ B := hws w (List.mem_cons_self w ws)
    have hws' : ∀ x ∈ ws, x.length ≤ B := fun x hx => hws x (List.mem_cons_of_mem w hx)
    unfold ssaAux at hc
    by_cases hbig : opts.chunkSize < current.length + w.length + 1
    · rw [if_pos hbig] at hc
      by_cases he : (stripChars current).isEmpty
      · rw [if_pos he] at hc
        exact ih w chunks ci hws' (le_trans hwB (le_max_right _ _)) c hc
      · rw [if_neg he] at hc
        rcases ih w _ (ci + 1) hws' (le_trans hwB (le_max_right _ _)) c hc with hc | hc
        · rcases List.mem_append.mp hc with hc | hc
          · exact Or.inl hc
          · right
            have : c = mkSecChunk docId sectionIdx ci (stripChars current) chunks.length
                tagArbitrary := by simpa using hc
            rw [this]
            exact le_trans (stripChars_length_le current) hcur
        · exact Or.inr hc
    · rw [if_neg hbig] at hc
      by_cases hce : current.isEmpty
      · rw [if_pos hce] at hc
        exact ih w chunks ci hws' (le_trans hwB (le_max_right _ _)) c hc
      · rw [if_neg hce] at hc
        refine ih (current ++ ' ' :: w) chunks ci hws' ?_ c hc
        have : (current ++ ' ' :: w).length = current.length + 1 + w.length := by
          simp [List.length_append]; omega
        rw [this]
        exact le_trans (by omega) (le_max_left _ _)

theorem ssa_mem (opts : ChunkingOptions) (docId : List Char) (sectionIdx startIdx : Nat)
    (s : List Char) (B : Nat) (hB : s.length ≤ B) :
    ∀ c ∈ splitSentenceArbitrarily opts docId sectionIdx startIdx s,
    c.content.length ≤ max opts.chunkSize B := by
  intro c hc
  unfold splitSentenceArbitrarily at hc
  rcases ssaAux_mem opts docId sectionIdx B (splitWS s) [] [] startIdx
      (fun w hw => le_trans (splitWSF_mem_length _ s w hw) hB) (by simp) c hc with hc | hc
  · exact absurd hc (by simp)
  · exact hc

theorem slpAux_mem (opts : ChunkingOptions) (docId : List Char) (sectionIdx : Nat)
    (B : Nat) :
    ∀ (sents : List (List Char)) (current : List Char) (chunks : List DocumentChunk) (ci : Nat),
    (∀ s ∈ sents, (stripChars s).length ≤ B) →
    current.length ≤ max (opts.chunkSize + 1) B →
    ∀ c ∈ slpAux opts docId sectionIdx sents current chunks ci,
    c ∈ chunks ∨ c.content.length ≤ max (opts.chunkSize + 1) B := by
  intro sents
  induction sents with
  | nil =>
    intro current chunks ci _ hcur c hc
    unfold slpAux at hc
    by_cases he : (stripChars current).isEmpty
    · rw [if_pos he] at hc; exact Or.inl hc
    · rw [if_neg he] at hc
      rcases List.mem_append.mp hc with hc | hc
      · exact Or.inl hc
      · right
        have : c = mkSecChunk docId sectionIdx ci (stripChars current) chunks.length
            tagSentence := by simpa using hc
        rw [this]
        exact le_trans (stripChars_length_le current) hcur
  | cons s0 sents ih =>
    intro current chunks ci hss hcur c hc
    have hsB : (stripChars s0).length ≤ B := hss s0 (List.mem_cons_self s0 sents)
    have hss' : ∀ x ∈ sents, (stripChars x).length ≤ B :=
      fun x hx => hss x (List.mem_cons_of_mem s0 hx)
    have hssa : ∀ (idx : Nat) (a : DocumentChunk),
        a ∈ splitSentenceArbitrarily opts docId sectionIdx idx (stripChars s0) →
        a.content.length ≤ max (opts.chunkSize + 1) B := by
      intro idx a ha
      have := ssa_mem opts docId sectionIdx idx (stripChars s0) B hsB a ha
      exact le_trans this (max_le_max (by omega) (le_refl _))
    unfold slpAux at hc
    by_cases h0 : (stripChars s0).isEmpty
    · rw [if_pos h0] at hc
      exact ih current chunks ci hss' hcur c hc
    · rw [if_neg h0] at hc
      by_cases hbig : opts.chunkSize < current.length + (stripChars s0).length
      · rw [if_pos hbig] at hc
        by_cases he : (stripChars current).isEmpty
        · rw [if_pos he] at hc
          by_cases hmax : opts.maxChunkSize < (stripChars s0).length
          · rw [if_pos hmax] at hc
            rcases ih [] _ _ hss' (by simp) c hc with hc | hc
            · rcases List.mem_append.mp hc with hc | hc
              · exact Or.inl hc
              · exact Or.inr (hssa ci c hc)
            · exact Or.inr hc
          · rw [if_neg hmax] at hc
            exact ih (stripChars s0) chunks ci hss' (le_trans hsB (le_max_right _ _)) c hc
        · rw [if_neg he] at hc
          by_cases hmax : opts.maxChunkSize < (stripChars s0).length
          · rw [if_pos hmax] at hc
            rcases ih [] _ _ hss' (by simp) c hc with hc | hc
            · rcases List.mem_append.mp hc with hc | hc
              · rcases List.mem_append.mp hc with hc | hc
                · exact Or.inl hc
                · right
                  have : c = mkSecChunk docId sectionIdx ci (stripChars current)
                      chunks.length tagSentence := by simpa using hc
                  rw [this]
                  exact le_trans (stripChars_length_le current) hcur
              · exact Or.inr (hssa (ci + 1) c hc)
            · exact Or.inr hc
          · rw [if_neg hmax] at hc
            rcases ih (stripChars s0) _ (ci + 1) hss'
                (le_trans hsB (le_max_right _ _)) c hc with hc | hc
            · rcases List.mem_append.mp hc with hc | hc
              · exact Or.inl hc
              · right
                have : c = mkSecChunk docId sectionIdx ci (stripChars current)
                    chunks.length tagSentence := by simpa using hc
                rw [this]
                exact le_trans (stripChars_length_le current) hcur
            · exact Or.inr hc
      · rw [if_neg hbig] at hc
        by_cases hce : current.isEmpty
        · rw [if_pos hce] at hc
          exact ih (stripChars s0) chunks ci hss' (le_trans hsB (le_max_right _ _)) c hc
        · rw [if_neg hce] at hc
          refine ih (current ++ ' ' :: stripChars s0) chunks ci hss' ?_ c hc
          have hlen : (current ++ ' ' :: stripChars s0).length
              = current.length + 1 + (stripChars s0).length := by
            simp [List.length_append]; omega
          rw [hlen]
          exact le_trans (by omega) (le_max_left _ _)

theorem splitByPatF_sum (m : List Char → Option (List Char)) (fuel : Nat) :
    ∀ (s : List Char), ((splitByPatF m fuel s).map List.length).sum ≤ s.length := by
  induction fuel with
  | zero => intro s; simp [splitByPatF]
  | succ fuel ih =>
    intro s
    unfold splitByPatF
    cases hs : searchMatch m s with
    | none => simp
    | some q =>
      obtain ⟨i, x⟩ := q
      by_cases hg : i + x.length ≤ s.length ∧ 0 < x.length
      · rw [show (match (some (i, x) : Option (Nat × List Char)) with
            | none => [s]
            | some (i, x) =>
              if i + x.length ≤ s.length ∧ 0 < x.length then
                s.take i :: splitByPatF m fuel (s.drop (i + x.length))
              else [s]) = (if i + x.length ≤ s.length ∧ 0 < x.length then
                s.take i :: splitByPatF m fuel (s.drop (i + x.length))
              else [s]) from rfl, if_pos hg]
        simp only [List.map_cons, List.sum_cons]
        have h1 := ih (s.drop (i + x.length))
        have h2 : (s.take i).length ≤ i := List.length_take_le _ _
        have h3 : (s.drop (i + x.length)).length = s.length - (i + x.length) :=
          List.length_drop ..
        omega
      · rw [show (match (some (i, x) : Option (Nat × List Char)) with
            | none => [s]
            | some (i, x) =>
              if i + x.length ≤ s.length ∧ 0 < x.length then
                s.take i :: splitByPatF m fuel (s.drop (i + x.length))
              else [s]) = (if i + x.length ≤ s.length ∧ 0 < x.length then
                s.take i :: splitByPatF m fuel (s.drop (i + x.length))
              else [s]) from rfl, if_neg hg]
        simp

theorem sbsAux_mem_le (text : List Char) :
    ∀ (parts : List (List Char)) (offset : Nat) (current : List Char),
    current.length ≤ offset →
    offset + ((parts.map List.length).sum) ≤ text.length →
    ∀ out ∈ sbsAux text parts offset current, out.length ≤ text.length := by
  intro parts
  induction parts with
  | nil =>
    intro offset current hcur hsum out hout
    unfold sbsAux at hout
    by_cases he : (stripChars current).isEmpty
    · rw [if_pos he] at hout; exact absurd hout (by simp)
    · rw [if_neg he] at hout
      have : out = stripChars current := by simpa using hout
      rw [this]
      have := stripChars_length_le current
      simp only [List.map_nil, List.sum_nil] at hsum
      omega
  | cons p rest ih =>
    intro offset current hcur hsum out hout
    simp only [List.map_cons, List.sum_cons] at hsum
    unfold sbsAux at hout
    by_cases hre : rest.isEmpty
    · rw [if_pos hre] at hout
      by_cases he : (stripChars (current ++ p)).isEmpty
      · rw [if_pos he] at hout; exact absurd hout (by simp)
      · rw [if_neg he] at hout
        have : out = stripChars (current ++ p) := by simpa using hout
        rw [this]
        have h1 := stripChars_length_le (current ++ p)
        rw [List.length_append] at h1
        omega
    · rw [if_neg hre] at hout
      cases hsm : searchMatch matchSentEnd (text.drop (offset + p.length)) with
      | some q =>
        rw [hsm] at hout
        rcases List.mem_cons.mp hout with rfl | hout
        · have h1 := stripChars_length_le (current ++ p ++ q.2)
          have h2 : q.1 + q.2.length ≤ (text.drop (offset + p.length)).length :=
            searchMatch_length matchSentEnd matchSentEnd_length _ q.1 q.2 (by rw [hsm])
          rw [List.length_drop] at h2
          simp only [List.length_append] at h1
          omega
        · exact ih (offset + p.length) [] (by simp) (by omega) out hout
      | none =>
        rw [hsm] at hout
        refine ih (offset + p.length) (current ++ p) ?_ (by omega) out hout
        rw [List.length_append]
        omega

theorem splitBySentences_le (t : List Char) :
    ∀ s ∈ splitBySentences t, s.length ≤ t.length := by
  intro s hs
  unfold splitBySentences at hs
  exact sbsAux_mem_le t (sentenceSplitParts t) 0 [] (by simp)
    (by simpa using splitByPatF_sum matchSentEnd (t.length + 1) t) s hs

theorem slp_top (opts : ChunkingOptions) (docId : List Char) (sectionIdx startIdx : Nat)
    (p : List Char) :
    ∀ c ∈ splitLargeParagraph opts docId sectionIdx startIdx p,
    c.content.length ≤ max (opts.chunkSize + 1) p.length := by
  intro c hc
  unfold splitLargeParagraph at hc
  rcases slpAux_mem opts docId sectionIdx p.length (splitBySentences p) [] [] startIdx
      (fun s hs => le_trans (stripChars_length_le s) (splitBySentences_le p s hs))
      (by simp) c hc with hc | hc
  · exact absurd hc (by simp)
  · exact hc

theorem collapseRunF_nil (p : Char → Bool) (r : Char) (fuel : Nat) :
    collapseRunF p r fuel [] = [] := by
  cases fuel <;> rfl

theorem mem_collapseRunF (p : Char → Bool) (r : Char) (fuel : Nat) :
    ∀ (t : List Char) (c : Char), c ∈ collapseRunF p r fuel t →
    (c = r ∧ ∃ d ∈ t, p d) ∨ (p c = false ∧ c ∈ t) := by
  induction fuel with
  | zero => intro t c hc; exact absurd hc (by simp [collapseRunF])
  | succ fuel ih =>
    intro t c hc
    cases t with
    | nil => exact absurd hc (by simp [collapseRunF])
    | cons a cs =>
      unfold collapseRunF at hc
      by_cases ha : p a
      · rw [if_pos ha] at hc
        rcases List.mem_cons.mp hc with rfl | hc
        · exact Or.inl ⟨rfl, a, List.mem_cons_self a cs, ha⟩
        · rcases ih _ c hc with ⟨hr, d, hd, hpd⟩ | ⟨hpc, hmem⟩
          · exact Or.inl ⟨hr, d,
              List.mem_cons_of_mem a ((List.dropWhile_sublist p).subset hd), hpd⟩
          · exact Or.inr ⟨hpc,
              List.mem_cons_of_mem a ((List.dropWhile_sublist p).subset hmem)⟩
      · rw [if_neg ha] at hc
        rcases List.mem_cons.mp hc with rfl | hc
        · exact Or.inr ⟨Bool.eq_false_iff.mpr ha, List.mem_cons_self c cs⟩
        · rcases ih _ c hc with ⟨hr, d, hd, hpd⟩ | ⟨hpc, hmem⟩
          · exact Or.inl ⟨hr, d, List.mem_cons_of_mem a hd, hpd⟩
          · exact Or.inr ⟨hpc, List.mem_cons_of_mem a hmem⟩

theorem mem_reduceDotsF (fuel : Nat) :
    ∀ (t : List Char) (c : Char), c ∈ reduceDotsF fuel t → c = '.' ∨ c ∈ t := by
  induction fuel with
  | zero => intro t c hc; exact absurd hc (by simp [reduceDotsF])
  | succ fuel ih =>
    intro t c hc
    cases t with
    | nil => exact absurd hc (by simp [reduceDotsF])
    | cons a cs =>
      unfold reduceDotsF at hc
      by_cases ha : a = '.'
      · rw [if_pos ha] at hc
        rcases List.mem_append.mp hc with hc | hc
        · left
          by_cases h3 : 3 ≤ 1 + (cs.takeWhile (fun x => x == '.')).length
          · rw [if_pos h3] at hc; simpa using hc
          · rw [if_neg h3] at hc
            exact List.eq_of_mem_replicate hc
        · rcases ih _ c hc with hc | hc
          · exact Or.inl hc
          · exact Or.inr (List.mem_cons_of_mem a ((List.dropWhile_sublist _).subset hc))
      · rw [if_neg ha] at hc
        rcases List.mem_cons.mp hc with rfl | hc
        · exact Or.inr (List.mem_cons_self c cs)
        · rcases ih _ c hc with hc | hc
          · exact Or.inl hc
          · exact Or.inr (List.mem_cons_of_mem a hc)

theorem mem_stripChars (s : List Char) (c : Char) (hc : c ∈ stripChars s) : c ∈ s := by
  unfold stripChars at hc
  exact (List.dropWhile_sublist _).subset
    ((List.rdropWhile_prefix _ _).sublist.subset hc)

/-- The normalized text contains no newline: the very first preprocessing
step collapses every whitespace run (including newlines) to a single space,
and no later step introduces one. -/
theorem preprocess_no_nl (t : List Char) : '\n' ∉ preprocess t := by
  intro hmem
  unfold preprocess at hmem
  have h1 := mem_stripChars _ _ hmem
  rcases mem_reduceDotsF _ _ _ h1 with h2 | h2
  · exact absurd h2 (by decide)
  · unfold collapseRun at h2
    rcases mem_collapseRunF _ _ _ _ _ h2 with ⟨h3, _⟩ | ⟨_, h3⟩
    · exact absurd h3 (by decide)
    · rcases mem_collapseRunF _ _ _ _ _ h3 with ⟨_, d, hd, hpd⟩ | ⟨h4, _⟩
      · have hdn : d = '\n' := by simpa using hpd
        subst hdn
        rcases mem_collapseRunF _ _ _ _ _ hd with ⟨h5, _⟩ | ⟨h5, _⟩
        · exact absurd h5 (by decide)
        · exact absurd h5 (by decide)
      · exact absurd h4 (by decide)

theorem preprocess_stripped (t : List Char) : stripChars (preprocess t) = preprocess t := by
  unfold preprocess
  exact stripChars_idem _

theorem splitLines_no_nl (s : List Char) (h : '\n' ∉ s) : splitLines s = [s] := by
  unfold splitLines splitLinesF
  have hdrop : s.dropWhile (fun c => !(c == '\n')) = [] := by
    rw [List.dropWhile_eq_nil_iff]
    intro x hx
    simp only [Bool.not_eq_eq_eq_not, Bool.not_true, beq_eq_false_iff_ne, ne_eq]
    intro hxe
    exact h (hxe ▸ hx)
  cases hf : s.length + 1 with
  | zero => omega
  | succ n =>
    simp only [hdrop]
    rw [List.takeWhile_eq_self_iff.mpr]
    intro x hx
    simp only [Bool.not_eq_eq_eq_not, Bool.not_true, beq_eq_false_iff_ne, ne_eq]
    intro hxe
    exact h (hxe ▸ hx)

theorem splitBySections_singleton (u : List Char) (hnl : '\n' ∉ u)
    (hstr : stripChars u = u) (hne : u ≠ []) : splitBySections u = [u] := by
  have hlines : splitLines u = [u] := splitLines_no_nl u hnl
  have haux : splitBySectionsAux [u] [] = [u] := by
    unfold splitBySectionsAux
    have hcur : (stripChars ([] : List Char)).isEmpty = true := by decide
    have happ : stripChars (u ++ ['\n']) = u := stripChars_append_nl u hstr hne
    by_cases hh : isSectionHeader u
    · rw [if_pos hh, if_pos hcur]
      unfold splitBySectionsAux
      rw [happ, if_neg (by simpa using hne)]
      rfl
    · rw [if_neg hh]
      unfold splitBySectionsAux
      have : ([] : List Char) ++ u ++ ['\n'] = u ++ ['\n'] := by simp
      rw [this, happ, if_neg (by simpa using hne)]
  unfold splitBySections
  rw [hlines, haux]
  simp [hne]

theorem searchMatch_paraBreak_none (s : List Char) (h : '\n' ∉ s) :
    searchMatch matchParaBreak s = none := by
  induction s with
  | nil => rfl
  | cons c rest ih =>
    unfold searchMatch
    have hc : c ≠ '\n' := fun hce => h (hce ▸ List.mem_cons_self c rest)
    have hm : matchParaBreak (c :: rest) = none := by
      unfold matchParaBreak
      split
      · rename_i heq
        injection heq with h1 _
        exact absurd h1 hc
      · rfl
    rw [hm, ih (fun hx => h (List.mem_cons_of_mem c hx))]
    rfl

theorem paragraphSplit_no_nl (u : List Char) (h : '\n' ∉ u) :
    paragraphSplit u = [u] := by
  unfold paragraphSplit splitByPat
  cases hf : u.length + 1 with
  | zero => omega
  | succ n =>
    unfold splitByPatF
    rw [searchMatch_paraBreak_none u h]

/-- On a newline-free, stripped, nonempty text shorter than `min_chunk_size`,
every chunk the hierarchical pass produces is still shorter than
`min_chunk_size`. -/
theorem hier_short (u : List Char) (opts : ChunkingOptions) (docId : List Char)
    (hnl : '\n' ∉ u) (hstr : stripChars u = u) (hne : u ≠ [])
    (hlen : u.length < opts.minChunkSize) :
    ∀ c ∈ hierarchicalChunk u opts docId, c.content.length < opts.minChunkSize := by
  intro c hc
  unfold hierarchicalChunk at hc
  rw [splitBySections_singleton u hnl hstr hne] at hc
  unfold hierAux at hc
  rw [show hierAux opts docId (0 + 1) [] = [] from rfl, List.append_nil] at hc
  unfold chunkSection at hc
  by_cases hsz : u.length ≤ opts.chunkSize
  · rw [if_pos hsz] at hc
    have : c = mkSecChunk docId 0 0 u 0 tagSectionIntact := by simpa using hc
    rw [this]
    exact hlen
  · rw [if_neg hsz] at hc
    rw [paragraphSplit_no_nl u hnl] at hc
    unfold csAux at hc
    rw [hstr, if_neg (by simpa using hne)] at hc
    rw [if_pos (by simpa using Nat.lt_of_not_le hsz)] at hc
    rw [if_pos (by decide)] at hc
    by_cases hmax : opts.maxChunkSize < u.length
    · rw [if_pos hmax] at hc
      unfold csAux at hc
      rw [if_pos (by decide)] at hc
      rcases List.mem_append.mp hc with hc | hc
      · exact absurd hc (by simp)
      · have hb := slp_top opts docId 0 0 u c hc
        have hcs : opts.chunkSize + 1 ≤ u.length := Nat.lt_of_not_le hsz
        rw [Nat.max_eq_right hcs] at hb
        omega
    · rw [if_neg hmax] at hc
      unfold csAux at hc
      rw [hstr, if_neg (by simpa using hne)] at hc
      have : c = mkSecChunk docId 0 0 u 0 tagParagraph := by
        simpa using hc
      rw [this]
      exact hlen

/-- When every hierarchical chunk is under `min_chunk_size`, the fallback
condition of `chunk_text` fires. -/
theorem rechunk_fires (h : List DocumentChunk) (opts : ChunkingOptions)
    (hall : ∀ c ∈ h, c.content.length < opts.minChunkSize) :
    (h.isEmpty || needsRechunking h opts) = true := by
  cases h with
  | nil => rfl
  | cons c rest =>
    rw [Bool.or_eq_true]
    right
    unfold needsRechunking
    rw [Bool.or_eq_true]
    right
    rw [List.any_eq_true]
    refine ⟨c, List.mem_cons_self c rest, ?_⟩
    rw [Bool.or_eq_true]
    left
    exact decide_eq_true (hall c (List.mem_cons_self c rest))

theorem simpleChunk_nil_of_short (t : List Char) (opts : ChunkingOptions)
    (docId : List Char) (hlen : t.length < opts.minChunkSize) :
    simpleChunk t opts docId = [] := by
  rw [List.eq_nil_iff_forall_not_mem]
  intro c hc
  obtain ⟨h1, _, h3⟩ := simpleChunk_mem t opts docId c hc
  omega

theorem strip_nil_imp_preprocess_nil (t : List Char) (h : (stripChars t).isEmpty) :
    preprocess t = [] := by
  have hall : ∀ c ∈ t, isPySpace c := by
    rw [← stripChars_eq_nil_iff]
    simpa using h
  cases t with
  | nil => rfl
  | cons a cs =>
    have hcol : collapseRun isPySpace ' ' (a :: cs) = [' '] := by
      unfold collapseRun collapseRunF
      rw [if_pos (hall a (List.mem_cons_self a cs))]
      have : cs.dropWhile isPySpace = [] := by
        rw [List.dropWhile_eq_nil_iff]
        intro x hx
        exact hall x (List.mem_cons_of_mem a hx)
      rw [this, collapseRunF_nil]
    unfold preprocess
    rw [hcol]
    rfl

/-- C10: (a) every chunk `chunk_text` returns — the final one included — has
content length `≥ min_chunk_size`; (b) consequently, a non-whitespace input
whose normalized length is below `min_chunk_size` yields the empty list (the
hierarchical result is all-short so the fallback fires, and the fallback
drops every sub-minimum window).  The hypothesis `chunk_overlap < chunk_size`
excludes the configurations on which the source's fallback loop never
terminates. -/
theorem c10_min_bound_and_short_input_empty :
    (∀ (text : List Char) (opts : ChunkingOptions) (docId : List Char),
      opts.chunkOverlap < opts.chunkSize →
      ∀ c ∈ chunkText text opts docId, opts.minChunkSize ≤ c.content.length) ∧
    (∀ (text : List Char) (opts : ChunkingOptions) (docId : List Char),
      opts.chunkOverlap < opts.chunkSize →
      preprocess text ≠ [] → (preprocess text).length < opts.minChunkSize →
      chunkText text opts docId = []) := by
  constructor
  · intro text opts docId _ c hc
    unfold chunkText at hc
    by_cases h0 : (stripChars text).isEmpty
    · rw [if_pos h0] at hc; exact absurd hc (by simp)
    · rw [if_neg h0] at hc
      by_cases hcond : ((hierarchicalChunk (preprocess text) opts docId).isEmpty
          || needsRechunking (hierarchicalChunk (preprocess text) opts docId) opts) = true
      · rw [if_pos hcond] at hc
        have hsimple : ∀ a ∈ simpleChunk (preprocess text) opts docId,
            opts.minChunkSize ≤ a.content.length :=
          fun a ha => (simpleChunk_mem _ opts docId a ha).1
        obtain ⟨c', hc', he⟩ := postProcess_mem opts _ hsimple c hc
        rw [he]
        exact hsimple c' hc'
      · rw [if_neg hcond] at hc
        rw [Bool.not_eq_true, Bool.or_eq_false_iff] at hcond
        have hbounds := needsRechunking_false_bounds _ opts hcond.2
        obtain ⟨c', hc', he⟩ := postProcess_mem opts _ (fun a ha => (hbounds a ha).1) c hc
        rw [he]
        exact (hbounds c' hc').1
  · intro text opts docId _ hne hlen
    unfold chunkText
    by_cases h0 : (stripChars text).isEmpty
    · rw [if_pos h0]
    · rw [if_neg h0]
      have hshort := hier_short (preprocess text) opts docId
        (preprocess_no_nl text) (preprocess_stripped text) hne hlen
      rw [if_pos (rechunk_fires _ opts hshort)]
      rw [simpleChunk_nil_of_short _ opts docId hlen]
      rfl

def shortInput : List Char := "hi".data

/-- Witness for `c10_min_bound_and_short_input_empty` at concrete inputs. -/
theorem c10_min_bound_and_short_input_empty_witness :
    (({} : ChunkingOptions).chunkOverlap < ({} : ChunkingOptions).chunkSize ∧
     preprocess shortInput ≠ [] ∧
     (preprocess shortInput).length < ({} : ChunkingOptions).minChunkSize) ∧
    (∀ c ∈ chunkText sampleText
        { chunkSize := 30, chunkOverlap := 5, minChunkSize := 5, maxChunkSize := 40 } [],
      5 ≤ c.content.length) ∧
    chunkText shortInput {} [] = [] :=
  ⟨⟨by decide, by decide, by decide⟩,
    c10_min_bound_and_short_input_empty.1 sampleText
      { chunkSize := 30, chunkOverlap := 5, minChunkSize := 5, maxChunkSize := 40 } []
      (by decide),
    c10_min_bound_and_short_input_empty.2 shortInput {} [] (by decide) (by decide)
      (by decide)⟩

def joinContents (l : List DocumentChunk) : List Char :=
  (l.map (fun c => c.content)).flatten

def inputTwelveAs : List Char := "aaaaaaaaaaaa".data

def optsDropping : ChunkingOptions :=
  { chunkSize := 10, chunkOverlap := 0, minChunkSize := 5, maxChunkSize := 8 }

/-- C6 counterexample: token preservation fails.  On twelve `a`s with
`chunk_size = 10, overlap = 0, min_chunk_size = 5, max_chunk_size = 8` the
hierarchical result (one 12-char chunk) exceeds `max_chunk_size`, the
sliding-window fallback emits only `text[0:10]` and DROPS the final 2-char
window (it is shorter than `min_chunk_size`): the single token of the
normalized text does not survive into the concatenated chunk contents. -/
theorem c6_counterexample :
    ¬ List.Sublist (splitWS (preprocess inputTwelveAs))
        (splitWS (joinContents (chunkText inputTwelveAs optsDropping []))) := by
  decide

theorem simpleLoopF_chain (opts : ChunkingOptions) (docId : List Char) (t : List Char)
    (step : Nat) (hstep : 0 < step) :
    ∀ (fuel start ci : Nat),
    List.Chain' (fun a b => (a.metadata.startPos).getD 0 < (b.metadata.startPos).getD 0)
      (simpleLoopF opts docId t step fuel start ci) := by
  intro fuel
  induction fuel with
  | zero => intro start ci; simp [simpleLoopF]
  | succ fuel ih =>
    intro start ci
    unfold simpleLoopF
    by_cases hend : t.length ≤ start
    · rw [if_pos hend]; exact List.chain'_nil
    · rw [if_neg hend]
      by_cases hkeep : ¬ (windowContent opts t start).isEmpty
          ∧ opts.minChunkSize ≤ (windowContent opts t start).length
      · rw [if_pos hkeep]
        rw [List.chain'_cons']
        refine ⟨?_, ih (start + step) (ci + 1)⟩
        intro y hy
        have hymem : y ∈ simpleLoopF opts docId t step fuel (start + step) (ci + 1) :=
          List.mem_of_mem_head? hy
        obtain ⟨_, _, _, s, hs1, hs2, _, _⟩ :=
          simpleLoopF_mem opts docId t step fuel (start + step) (ci + 1) y hymem
        show (Option.getD (some start) 0) < (y.metadata.startPos).getD 0
        rw [hs1]
        simp only [Option.getD_some]
        omega
      · rw [if_neg hkeep]
        exact ih (start + step) ci

/-- C6, amended: on the sliding-window fallback path every emitted chunk is
the stripped slice `text[start:end]` recorded in its metadata with
`start ≤ end ≤ start + chunk_size`, and the start offsets strictly increase
along the returned list — retained text is never reordered; however
sub-minimum windows are dropped (tokens can be omitted, as the counterexample
shows) and overlapping windows repeat text. -/
theorem c6_fallback_ordered_slices (t : List Char) (opts : ChunkingOptions)
    (docId : List Char) (hov : opts.chunkOverlap < opts.chunkSize) :
    List.Chain' (fun a b => (a.metadata.startPos).getD 0 < (b.metadata.startPos).getD 0)
      (simpleChunk t opts docId) ∧
    ∀ c ∈ simpleChunk t opts docId, ∃ s,
      c.metadata.startPos = some s ∧
      c.metadata.endPos = some (snapEnd opts t s) ∧
      s ≤ snapEnd opts t s ∧ snapEnd opts t s ≤ s + opts.chunkSize ∧
      c.content = stripChars ((t.drop s).take (snapEnd opts t s - s)) := by
  constructor
  · unfold simpleChunk
    rw [if_neg (by omega)]
    exact simpleLoopF_chain opts docId t _ (by omega) _ 0 0
  · intro c hc
    unfold simpleChunk at hc
    rw [if_neg (by omega)] at hc
    obtain ⟨_, _, _, s, hs1, _, hs3, hs4⟩ := simpleLoopF_mem opts docId t _ _ _ _ c hc
    exact ⟨s, hs1, hs3, start_le_snapEnd opts t s, snapEnd_le opts t s, hs4⟩

/-- Witness for `c6_fallback_ordered_slices` at a concrete input. -/
theorem c6_fallback_ordered_slices_witness :
    (optsDropping.chunkOverlap < optsDropping.chunkSize) ∧
    (List.Chain'
        (fun a b => (a.metadata.startPos).getD 0 < (b.metadata.startPos).getD 0)
        (simpleChunk inputTwelveAs optsDropping []) ∧
      ∀ c ∈ simpleChunk inputTwelveAs optsDropping [], ∃ s,
        c.metadata.startPos = some s ∧
        c.metadata.endPos = some (snapEnd optsDropping inputTwelveAs s) ∧
        s ≤ snapEnd optsDropping inputTwelveAs s ∧
        snapEnd optsDropping inputTwelveAs s ≤ s + optsDropping.chunkSize ∧
        c.content = stripChars ((inputTwelveAs.drop s).take
          (snapEnd optsDropping inputTwelveAs s - s))) :=
  ⟨by decide, c6_fallback_ordered_slices inputTwelveAs optsDropping [] (by decide)⟩

/-! ## Vector service (`app/services/vector_service.py`)

The backend and embedding-provider calls are I/O; each call's outcome is
modeled as an `Except` value (or an `Except`-valued function) passed to the
embedded operation, so the `try/except` control flow of the source is what
remains to verify.  Scores (floats carried through data) are `ℚ`. -/

/-- The dict ChromaDB's `collection.query` returns (`ids`/`distances`/
`metadatas`/`documents`, each a list of per-query rows). -/
structure ChromaQueryResult where
  ids : List (List (List Char))
  distances : List (List ℚ)
  metadatas : List (List Meta)
  documents : List (List (List Char))
deriving DecidableEq, Repr, Inhabited

/-- One formatted search result (`{"id", "score", "metadata"}`). -/
structure FormattedResult where
  id : List Char
  score : ℚ
  metadata : Meta
deriving DecidableEq, Repr, Inhabited

/-- One iteration of the result-formatting loop of `_search_in_chroma`:
`score = 1 - distances[0][i]`, metadata extended with the document content.
Any out-of-range index is an exception (`none`), caught by the enclosing
`except`. -/
def formatChromaRow (r : ChromaQueryResult) (i : Nat) (cid : List Char) :
    Option FormattedResult := do
  let d0 ← r.distances.head?
  let di ← d0.get? i
  let m0 ← r.metadatas.head?
  let mi ← m0.get? i
  let doc0 ← r.documents.head?
  let di2 ← doc0.get? i
  pure { id := cid, score := 1 - di, metadata := { mi with content := some di2 } }

def enumFrom {α : Type} : Nat → List α → List (Nat × α)
  | _, [] => []
  | i, a :: rest => (i, a) :: enumFrom (i + 1) rest

/-- The `if results["ids"] and results["ids"][0]` guard plus formatting loop
of `_search_in_chroma`. -/
def formatChroma (r : ChromaQueryResult) : Option (List FormattedResult) :=
  match r.ids.head? with
  | none => some []
  | some ids0 =>
    if ids0.isEmpty then some []
    else (enumFrom 0 ids0).mapM (fun p => formatChromaRow r p.1 p.2)

/-- Embedding of `VectorService._search_in_chroma`: the whole body is wrapped in
`try/except` that catches ANY failure — of the backend call or of the
formatting — and returns `[]` instead of re-raising. -/
def searchInChroma (queryCall : Except (List Char) ChromaQueryResult) :
    List FormattedResult :=
  match queryCall with
  | .error _ => []
  | .ok r =>
    match formatChroma r with
    | some rs => rs
    | none => []

def keyErrorContent : List Char := "KeyError: content".data

/-- Embedding of `VectorService.search_similar_chunks` (ChromaDB variant): embed the
query (failure re-raised by the outer `except`), search (failures swallowed
inside `_search_in_chroma`), convert results to `DocumentChunk`s (a missing
`content` key would raise and be re-raised). -/
def searchSimilarChunks (embedCall : Except (List Char) (List ℚ))
    (queryCall : List ℚ → Except (List Char) ChromaQueryResult) :
    Except (List Char) (List DocumentChunk) := do
  let emb ← embedCall
  let results := searchInChroma (queryCall emb)
  results.mapM (fun fr =>
    match fr.metadata.content with
    | some content => .ok { id := fr.id, content := content, metadata := fr.metadata }
    | none => .error keyErrorContent)

/-- Embedding of `VectorService.store_document_chunks`: every per-chunk embedding failure
and every backend failure is re-raised (`except ...: raise`); on success the
function returns `True`. -/
def storeDocumentChunks (embed : List Char → Except (List Char) (List ℚ))
    (chunks : List DocumentChunk) (storeCall : Except (List Char) Unit) :
    Except (List Char) Bool := do
  let _ ← chunks.mapM (fun c => embed c.content)
  let _ ← storeCall
  pure true

/-- Embedding of `VectorService.delete_document` (ChromaDB variant): fetch the ids for the
document, delete them if any; ANY failure is caught and `False` is returned
instead of an error, success returns `True`. -/
def deleteDocument (getCall : Except (List Char) (List (List Char)))
    (delCall : List (List Char) → Except (List Char) Unit) : Bool :=
  match (do
      let ids ← getCall
      if ids.isEmpty then pure () else delCall ids :
      Except (List Char) Unit) with
  | .ok _ => true
  | .error _ => false

def errBackendDown : List Char := "backend down".data

/-- C7 counterexample: a failing backend call inside a vector-index
operation does NOT propagate as an error.  A failing ChromaDB query inside
`search_similar_chunks` yields the normal result `ok []` (an empty result
list), and a failing fetch inside `delete_document` yields the normal result
`False` — exactly the two silent-swallowing shapes the claim rules out. -/
theorem c7_counterexample :
    searchSimilarChunks (.ok [1]) (fun _ => .error errBackendDown) = .ok [] ∧
    deleteDocument (.error errBackendDown) (fun _ => .ok ()) = false := by
  constructor
  · rfl
  · rfl

/-- C7, amended: embedding-provider failures do propagate unmodified —
`store_document_chunks` re-raises a failing chunk embedding and
`search_similar_chunks` re-raises a failing query embedding — but backend
failures inside `_search_in_chroma` are swallowed into an empty result list,
and any failure inside `delete_document` is swallowed into `False`. -/
theorem c7_error_propagation :
    (∀ (e : List Char) (q : List ℚ → Except (List Char) ChromaQueryResult),
      searchSimilarChunks (.error e) q = .error e) ∧
    (∀ (embed : List Char → Except (List Char) (List ℚ)) (c : DocumentChunk)
        (e : List Char) (sc : Except (List Char) Unit),
      embed c.content = .error e → storeDocumentChunks embed [c] sc = .error e) ∧
    (∀ (e : List Char), searchInChroma (.error e) = []) ∧
    (∀ (e : List Char) (del : List (List Char) → Except (List Char) Unit),
      deleteDocument (.error e) del = false) := by
  refine ⟨?_, ?_, ?_, ?_⟩
  · intro e q; rfl
  · intro embed c e sc he
    unfold storeDocumentChunks
    simp only [List.mapM_cons, List.mapM_nil, he]
    rfl
  · intro e; rfl
  · intro e del; rfl

/-- Witness for `c7_error_propagation` at concrete inputs. -/
theorem c7_error_propagation_witness :
    ((fun _ : List Char => (Except.error errBackendDown : Except (List Char) (List ℚ)))
        chunkAlpha.content = .error errBackendDown) ∧
    searchSimilarChunks (.error errBackendDown) (fun _ => .ok default) = .error errBackendDown ∧
    storeDocumentChunks (fun _ => .error errBackendDown) [chunkAlpha] (.ok ())
      = .error errBackendDown ∧
    searchInChroma (.error errBackendDown) = [] ∧
    deleteDocument (.error errBackendDown) (fun _ => .ok ()) = false :=
  ⟨rfl,
   c7_error_propagation.1 errBackendDown (fun _ => .ok default),
   c7_error_propagation.2.1 (fun _ => .error errBackendDown) chunkAlpha errBackendDown
     (.ok ()) rfl,
   c7_error_propagation.2.2.1 errBackendDown,
   c7_error_propagation.2.2.2 errBackendDown (fun _ => .ok ())⟩

/-- Model of `np.dot` on equal-length vectors (floats modeled as reals). -/
def dotProduct (v w : List ℝ) : ℝ := (List.zipWith (fun a b => a * b) v w).sum

/-- Model of `np.linalg.norm` (floats modeled as reals). -/
noncomputable def vecNorm (v : List ℝ) : ℝ := Real.sqrt (dotProduct v v)

/-- Embedding of `VectorService._cosine_similarity`: `dot/(‖a‖·‖b‖)` with the explicit
`0` guard when either norm is zero.  The floating-point arithmetic of the
source is modeled over `ℝ`, where the spec's `≈ 1` holds exactly. -/
noncomputable def cosineSimilarity (v w : List ℝ) : ℝ :=
  if vecNorm v = 0 ∨ vecNorm w = 0 then 0
  else dotProduct v w / (vecNorm v * vecNorm w)

theorem dotProduct_comm (v w : List ℝ) : dotProduct v w = dotProduct w v := by
  unfold dotProduct
  congr 1
  induction v generalizing w with
  | nil => cases w <;> rfl
  | cons a t ih =>
    cases w with
    | nil => rfl
    | cons b u =>
      simp only [List.zipWith_cons_cons]
      rw [ih u, mul_comm]

theorem dotProduct_self_nonneg (v : List ℝ) : 0 ≤ dotProduct v v := by
  unfold dotProduct
  induction v with
  | nil => simp
  | cons a t ih =>
    simp only [List.zipWith_cons_cons, List.sum_cons]
    have : 0 ≤ a * a := mul_self_nonneg a
    unfold dotProduct at ih
    linarith

/-- C9: the in-memory cosine similarity returns `0` when either norm is
zero, is symmetric, and equals `1` on any vector with nonzero self
dot-product (in the real model; in floats this is the spec's `≈ 1`). -/
theorem c9_cosine_similarity_spec :
    (∀ v w : List ℝ, vecNorm v = 0 ∨ vecNorm w = 0 → cosineSimilarity v w = 0) ∧
    (∀ v w : List ℝ, cosineSimilarity v w = cosineSimilarity w v) ∧
    (∀ v : List ℝ, dotProduct v v ≠ 0 → cosineSimilarity v v = 1) := by
  refine ⟨?_, ?_, ?_⟩
  · intro v w h
    unfold cosineSimilarity
    rw [if_pos h]
  · intro v w
    unfold cosineSimilarity
    by_cases h : vecNorm v = 0 ∨ vecNorm w = 0
    · rw [if_pos h, if_pos (Or.symm h)]
    · rw [if_neg h, if_neg (fun hc => h (Or.symm hc))]
      rw [dotProduct_comm, mul_comm]
  · intro v h
    have hpos : 0 < dotProduct v v := lt_of_le_of_ne (dotProduct_self_nonneg v) (Ne.symm h)
    have hnorm : vecNorm v ≠ 0 := by
      unfold vecNorm
      rw [Ne, Real.sqrt_eq_zero (le_of_lt hpos)]
      exact h
    unfold cosineSimilarity
    rw [if_neg (by rintro (hc | hc) <;> exact hnorm hc)]
    unfold vecNorm
    rw [Real.mul_self_sqrt (le_of_lt hpos)]
    exact div_self h

/-- Witness for `c9_cosine_similarity_spec` at concrete vectors. -/
theorem c9_cosine_similarity_spec_witness :
    (vecNorm ([] : List ℝ) = 0 ∨ vecNorm ([1] : List ℝ) = 0) ∧
    dotProduct ([1] : List ℝ) [1] ≠ 0 ∧
    cosineSimilarity ([] : List ℝ) [1] = 0 ∧
    cosineSimilarity ([1] : List ℝ) [1] = 1 := by
  have hz : vecNorm ([] : List ℝ) = 0 := by
    unfold vecNorm dotProduct
    simp
  have hd : dotProduct ([1] : List ℝ) [1] ≠ 0 := by
    unfold dotProduct
    norm_num
  exact ⟨Or.inl hz, hd,
    c9_cosine_similarity_spec.1 [] [1] (Or.inl hz),
    c9_cosine_similarity_spec.2.2 [1] hd⟩
